import Mathlib

/-!
Verification of the PromQL builder library (`promql_builder.py`).

The Python source is shallowly embedded: each dataclass becomes a Lean
structure, each method a Lean function; methods that raise become
`Except String`-valued functions.  Python strings are `String` / `List Char`,
Python `re` searches are run through a small backtracking engine that mirrors
the semantics of the patterns used by the source (leftmost match, alternation
order, greedy / lazy repetition, capture groups).
-/

namespace PromQL

/-! ## Models of Python primitives -/

/-- ASCII model of Python `str.isspace` for a single character. -/
def pyIsSpace (c : Char) : Bool :=
  c = ' ' || c = '\t' || c = '\n' || c = '\x0d' || c = '\x0b' || c = '\x0c'

/-- Python `str.isdigit` (ASCII). -/
def pyIsDigit (c : Char) : Bool := '0' ≤ c && c ≤ '9'

/-- Python `str.isalpha` (ASCII). -/
def pyIsAlpha (c : Char) : Bool := ('a' ≤ c && c ≤ 'z') || ('A' ≤ c && c ≤ 'Z')

/-- Python `str.isalnum` (ASCII). -/
def pyIsAlnum (c : Char) : Bool := pyIsAlpha c || pyIsDigit c

/-- Left strip: drop leading whitespace. -/
def lstrip (l : List Char) : List Char := l.dropWhile pyIsSpace

/-- Right strip: drop trailing whitespace. -/
def rstrip (l : List Char) : List Char := (l.reverse.dropWhile pyIsSpace).reverse

/-- Python `str.strip()`. -/
def pyStrip (l : List Char) : List Char := rstrip (lstrip l)

/-- `p.isPrefixOf l` for characters, as a Bool. -/
def listIsPrefix (p l : List Char) : Bool := List.isPrefixOf p l

/-- Python substring containment `sub in s` over character lists. -/
def listIsInfix (sub : List Char) : List Char → Bool
  | [] => listIsPrefix sub []
  | c :: t => listIsPrefix sub (c :: t) || listIsInfix sub t

/-- Python substring containment `sub in s`. -/
def strContains (s sub : String) : Bool := listIsInfix sub.toList s.toList

/-- Digits of a numeral to a natural number. -/
def natOfDigits (l : List Char) : Nat :=
  l.foldl (fun acc c => acc * 10 + (c.toNat - '0'.toNat)) 0

/-- Python `float` values are modelled as exact decimals: an integer part and
the fractional digits with trailing zeros removed.  This is enough to model
both equality of and `str()` on the short decimal literals the source ever
feeds to `float(...)`. -/
structure PyFloat where
  ip : Nat
  frac : List Char
deriving DecidableEq, Repr

/-- `float(s)` for a string consisting of digits and dots (the only shape the
source passes, coming from `([0-9.]+)` matches): fails (raises `ValueError`)
unless there is at least one digit and at most one dot. -/
def pyFloatOfChars (s : List Char) : Option PyFloat :=
  if s.all (fun c => pyIsDigit c || c = '.') && s.any pyIsDigit
      && s.count '.' ≤ 1 then
    let ipart := s.takeWhile (fun c => c ≠ '.')
    let fpart := (s.drop (ipart.length + 1)).reverse.dropWhile (fun c => c = '0')
    some ⟨natOfDigits ipart, fpart.reverse⟩
  else none

/-- Python `str(f)` for such a float. -/
def renderPyFloat (f : PyFloat) : String :=
  toString f.ip ++ "." ++ (if f.frac = [] then "0" else String.mk f.frac)

/-- A Python number: `int` or `float` (the scalar cases of the source's
`Union[...]` operand types). -/
inductive PyNum where
  | pint (n : Int)
  | pfloat (f : PyFloat)
deriving DecidableEq, Repr

/-- Python `str` on a number. -/
def renderPyNum : PyNum → String
  | .pint n => toString n
  | .pfloat f => renderPyFloat f

/-! ## Data model (`LabelMatcher`, `MetricSelector`, `Function`, operations) -/

/-- `LabelMatcher` dataclass. -/
structure LabelMatcher where
  name : String
  value : String
  operator : String := "="
deriving DecidableEq, Repr

/-- `LabelMatcher.__str__`. -/
def renderLabelMatcher (l : LabelMatcher) : String :=
  l.name ++ l.operator ++ "\"" ++ l.value ++ "\""

/-- `MetricSelector` dataclass. -/
structure MetricSelector where
  name : String
  labels : List LabelMatcher := []
  range_window : Option String := none
  offset : Option String := none
deriving DecidableEq, Repr

/-- Python truthiness of an `Optional[str]` (`None` and `""` are falsy). -/
def pyTruthyStr : Option String → Bool
  | none => false
  | some s => s ≠ ""

/-- `MetricSelector.__str__`. -/
def renderMetricSelector (m : MetricSelector) : String :=
  m.name
    ++ (if m.labels ≠ [] then
          "\x7b" ++ String.intercalate "," (m.labels.map renderLabelMatcher) ++ "\x7d"
        else "")
    ++ (match m.range_window with
        | some w => if w ≠ "" then "[" ++ w ++ "]" else ""
        | none => "")
    ++ (match m.offset with
        | some o => if o ≠ "" then " offset " ++ o else ""
        | none => "")

/-- The `Union[str, float, MetricSelector, Function]` argument/operand type;
`afunc` inlines the fields of a nested `Function`. -/
inductive Arg where
  | astr (s : String)
  | anum (x : PyNum)
  | ametric (m : MetricSelector)
  | afunc (name : String) (args : List Arg) (group_by : List String) (without : List String)

/-- The trailer `Function.__str__` appends for a grouping clause. -/
def renderGrouping (group_by without : List String) : String :=
  if group_by ≠ [] then " by (" ++ String.intercalate ", " group_by ++ ")"
  else if without ≠ [] then " without (" ++ String.intercalate ", " without ++ ")"
  else ""

mutual

/-- Python `str` on an argument value. -/
def renderArg : Arg → String
  | .astr s => s
  | .anum x => renderPyNum x
  | .ametric m => renderMetricSelector m
  | .afunc n args g w =>
      n ++ "(" ++ String.intercalate ", " (renderArgList args) ++ ")" ++ renderGrouping g w

/-- `str` mapped over an argument list. -/
def renderArgList : List Arg → List String
  | [] => []
  | a :: as => renderArg a :: renderArgList as

end

/-- `Function` dataclass. -/
structure Func where
  name : String
  args : List Arg := []
  group_by : List String := []
  without : List String := []

/-- `Function.__str__`. -/
def renderFunc (f : Func) : String :=
  f.name ++ "(" ++ String.intercalate ", " (renderArgList f.args) ++ ")"
    ++ renderGrouping f.group_by f.without

/-- `ArithmeticOperation` dataclass. -/
structure ArithmeticOperation where
  operator : String
  value : Arg
  is_scalar : Bool := true

/-- `BinaryOperation` dataclass. -/
structure BinaryOperation where
  operator : String
  right : Arg

/-! ## `PromQLBuilder` state and mutators -/

/-- The mutable state of a `PromQLBuilder` instance. -/
structure BState where
  metric : Option MetricSelector := none
  functions : List Func := []
  binary_ops : List BinaryOperation := []
  arithmetic_ops : List ArithmeticOperation := []
  full_expression : Option String := none

namespace PromQLBuilder

/-- `PromQLBuilder()` with no query: the freshly initialised state. -/
def init : BState := {}

/-- The `if self.full_expression: self.full_expression = None` epilogue shared
by the mutators (note the Python truthiness test: `Some ""` is kept). -/
def clearFe (st : BState) : BState :=
  match st.full_expression with
  | some s => if s ≠ "" then { st with full_expression := none } else st
  | none => st

/-- Valid duration suffix characters. -/
def durationUnits : List Char := ['s', 'm', 'h', 'd', 'w', 'y']

/-- `re.match(r'^\d+[smhdwy]$', s)` as a Bool: one or more digits then a unit
character; `$` also accepts a single trailing newline. -/
def durationMatch (s : String) : Bool :=
  let cs := s.toList
  let ds := cs.takeWhile pyIsDigit
  ds ≠ [] &&
    match cs.drop ds.length with
    | [u] => durationUnits.contains u
    | [u, c] => durationUnits.contains u && c = '\n'
    | _ => false

/-- `PromQLBuilder.parse_duration`. -/
def parse_duration (duration : String) : Except String String :=
  if durationMatch duration then .ok duration
  else .error ("Invalid duration format: " ++ duration)

/-- `with_metric`: fully replaces the metric; it does not touch
`full_expression`. -/
def with_metric (st : BState) (name : String) : BState :=
  { st with metric := some { name := name } }

/-- `remove_label`. -/
def remove_label (st : BState) (name : String) : Except String BState :=
  match st.metric with
  | none => .error "No metric selected"
  | some m =>
      .ok (clearFe { st with
        metric := some { m with labels := m.labels.filter (fun l => l.name != name) } })

/-- The valid label operators accepted by `with_label`. -/
def validLabelOps : List String := ["=", "!=", "=~", "!~"]

/-- `with_label`. -/
def with_label (st : BState) (name value : String) (operator : String := "=") :
    Except String BState :=
  match st.metric with
  | none => .error "No metric selected"
  | some _ =>
      if validLabelOps.contains operator then do
        let st1 ← remove_label st name
        match st1.metric with
        | none => .error "No metric selected"
        | some m =>
            .ok (clearFe { st1 with
              metric := some { m with
                labels := m.labels ++ [⟨name, value, operator⟩] } })
      else .error ("Invalid operator: " ++ operator)

/-- `with_range`. -/
def with_range (st : BState) (window : String) : Except String BState :=
  match st.metric with
  | none => .error "No metric selected"
  | some m => do
      let w ← parse_duration window
      .ok (clearFe { st with metric := some { m with range_window := some w } })

/-- `with_offset`. -/
def with_offset (st : BState) (offset : String) : Except String BState :=
  match st.metric with
  | none => .error "No metric selected"
  | some m => do
      let o ← parse_duration offset
      .ok (clearFe { st with metric := some { m with offset := some o } })

/-- `with_function`: replace in place the first function of the same name,
else append. -/
def with_function (st : BState) (name : String) (args : List Arg)
    (by_labels : Option (List String) := none)
    (without_labels : Option (List String) := none) : BState :=
  let func : Func := ⟨name, args, by_labels.getD [], without_labels.getD []⟩
  match st.functions.findIdx? (fun f => f.name == name) with
  | some i => clearFe { st with functions := st.functions.set i func }
  | none => clearFe { st with functions := st.functions ++ [func] }

/-- `with_rate`. -/
def with_rate (st : BState) (window : String := "5m") : Except String BState :=
  match st.metric with
  | none => .error "No metric selected"
  | some m => do
      let w ← parse_duration window
      let st1 := clearFe { st with metric := some { m with range_window := some w } }
      .ok (with_function st1 "rate" [Arg.astr "$expr"])

/-- Valid operators for `with_binary_op`. -/
def validBinaryOps : List String :=
  ["+", "-", "*", "/", "%", "^", "==", "!=", ">", "<", ">=", "<=", "and", "or", "unless"]

/-- `with_binary_op`. -/
def with_binary_op (st : BState) (operator : String) (value : Arg) :
    Except String BState :=
  if validBinaryOps.contains operator then
    .ok (clearFe { st with binary_ops := st.binary_ops ++ [⟨operator, value⟩] })
  else .error ("Invalid operator: " ++ operator)

/-- Valid operators for `with_arithmetic_op`. -/
def validArithmeticOps : List String := ["+", "-", "*", "/", "%", "^"]

/-- The `isinstance(value, (str, float)) or ...` scalar test of
`with_arithmetic_op` (a Python `int` is neither). -/
def argIsScalar : Arg → Bool
  | .astr _ => true
  | .anum (.pfloat _) => true
  | .anum (.pint _) => false
  | .ametric _ => false
  | .afunc _ _ _ _ => false

/-- `with_arithmetic_op`. -/
def with_arithmetic_op (st : BState) (operator : String) (value : Arg) :
    Except String BState :=
  if validArithmeticOps.contains operator then
    .ok (clearFe { st with
      arithmetic_ops := st.arithmetic_ops ++ [⟨operator, value, argIsScalar value⟩] })
  else .error ("Invalid operator: " ++ operator)

/-- `remove_function`. -/
def remove_function (st : BState) (name : String) : BState :=
  clearFe { st with functions := st.functions.filter (fun f => f.name != name) }

/-- `remove_binary_op`: pops the last one if any. -/
def remove_binary_op (st : BState) : BState :=
  clearFe { st with binary_ops := st.binary_ops.dropLast }

/-- `remove_arithmetic_op`: pops the last one if any. -/
def remove_arithmetic_op (st : BState) : BState :=
  clearFe { st with arithmetic_ops := st.arithmetic_ops.dropLast }

/-- `remove_range`. -/
def remove_range (st : BState) : BState :=
  match st.metric with
  | some m => clearFe { st with metric := some { m with range_window := none } }
  | none => clearFe st

/-- `remove_offset`. -/
def remove_offset (st : BState) : BState :=
  match st.metric with
  | some m => clearFe { st with metric := some { m with offset := none } }
  | none => clearFe st

/-! ## Inspection API -/

/-- `get_metric_name`. -/
def get_metric_name (st : BState) : Option String := st.metric.map (·.name)

/-- `get_range_window`. -/
def get_range_window (st : BState) : Option String :=
  match st.metric with
  | none => none
  | some m => m.range_window

/-- `get_offset`. -/
def get_offset (st : BState) : Option String :=
  match st.metric with
  | none => none
  | some m => m.offset

/-! ## `build` -/

/-- The operator substrings whose presence in `full_expression` makes `build`
return the original text. -/
def fallbackOps : List String :=
  [">", "<", ">=", "<=", "==", "!=", "+", "-", "*", "/", "%", "^"]

/-- The `any([...])` fallback test in `build`. -/
def fallbackTriggers (fe : String) : Bool :=
  strContains fe "by (" || strContains fe "without (" ||
  (strContains fe "rate(" && strContains fe "[") ||
  fallbackOps.any (fun op => strContains fe op)

/-- One step of the function-application loop of `build`. -/
def applyFunc (m : MetricSelector) (expr : String) (func : Func) : String :=
  if func.name == "rate" && pyTruthyStr m.range_window then
    "rate(" ++ expr ++ ")"
  else
    let args := func.args.map (fun arg =>
      match arg with
      | .astr s => if s == "$expr" then expr else s
      | a => renderArg a)
    let e := func.name ++ "(" ++ String.intercalate ", " args ++ ")"
    if func.group_by ≠ [] then e ++ " by (" ++ String.intercalate ", " func.group_by ++ ")"
    else if func.without ≠ [] then
      e ++ " without (" ++ String.intercalate ", " func.without ++ ")"
    else e

/-- The structured-state rendering path of `build` (everything after the
fallback check). -/
def structuredRender (st : BState) (m : MetricSelector) : String :=
  let expr0 := renderMetricSelector m
  let expr1 := st.functions.foldl (applyFunc m) expr0
  let expr2 := st.arithmetic_ops.foldl
    (fun expr op =>
      if op.is_scalar then "(" ++ expr ++ " " ++ op.operator ++ " " ++ renderArg op.value ++ ")"
      else "(" ++ expr ++ " " ++ op.operator ++ " " ++ renderArg op.value ++ ")")
    expr1
  st.binary_ops.foldl
    (fun expr op =>
      match op.right with
      | .anum v => "(" ++ expr ++ " " ++ op.operator ++ " " ++ renderPyNum v ++ ")"
      | r => "(" ++ expr ++ " " ++ op.operator ++ " " ++ renderArg r ++ ")")
    expr2

/-- `PromQLBuilder.build`. -/
def build (st : BState) : Except String String :=
  match st.metric with
  | none => .error "No metric selected"
  | some m =>
      match st.full_expression with
      | some fe =>
          if fe ≠ "" && fallbackTriggers fe then .ok fe else .ok (structuredRender st m)
      | none => .ok (structuredRender st m)

end PromQLBuilder

/-! ## A small backtracking regex engine

Models the fragment of Python `re` used by `_parse_query`: character
classes, concatenation, alternation (left preference), greedy and lazy
repetition, capture groups, word boundaries; `re.search` scans for the
leftmost starting position, `re.findall` collects non-overlapping matches. -/

/-- Regular expressions (Python `re` fragment). -/
inductive RE where
  | eps
  | cls (neg : Bool) (ranges : List (Char × Char))
  | seq (a b : RE)
  | alt (a b : RE)
  | star (lazy : Bool) (a : RE)
  | group (i : Nat) (a : RE)
  | boundary
deriving Repr

/-- Does character `c` match the class? -/
def classMatch (neg : Bool) (ranges : List (Char × Char)) (c : Char) : Bool :=
  let m := ranges.any (fun p => p.1 ≤ c && c ≤ p.2)
  if neg then !m else m

/-- A regex word character (`\w`, for `\b`): ASCII letter, digit or `_`. -/
def wordChar (c : Char) : Bool := pyIsAlnum c || c = '_'

/-- Capture-group environment: group index to (start, stop) span. -/
abbrev Groups := List (Nat × (Nat × Nat))

/-- Record the span of group `i` (overwriting an earlier span). -/
def setGroup (g : Groups) (i : Nat) (span : Nat × Nat) : Groups :=
  (i, span) :: (g.filter (fun e => e.1 ≠ i))

/-- All ways the starred expression can advance from `pos`, given `step`, the
matcher of the body; candidate end positions in backtracking preference
order (greedy: more iterations first; lazy: fewer first). -/
def starIter (step : Nat → Groups → List (Nat × Groups)) (lazy : Bool) :
    Nat → Nat → Groups → List (Nat × Groups)
  | 0, pos, g => [(pos, g)]
  | fuel + 1, pos, g =>
      let heads := (step pos g).filter (fun r => pos < r.1)
      let deeper := heads.flatMap (fun r => starIter step lazy fuel r.1 r.2)
      if lazy then (pos, g) :: deeper else deeper ++ [(pos, g)]

/-- All matches of `re` on `t` starting at `pos`: end positions with group
environments, in backtracking preference order. -/
def reMatches (t : List Char) : RE → Nat → Groups → List (Nat × Groups)
  | .eps, pos, g => [(pos, g)]
  | .cls neg rs, pos, g =>
      match t.get? pos with
      | some c => if classMatch neg rs c then [(pos + 1, g)] else []
      | none => []
  | .seq a b, pos, g =>
      (reMatches t a pos g).flatMap (fun r => reMatches t b r.1 r.2)
  | .alt a b, pos, g => reMatches t a pos g ++ reMatches t b pos g
  | .star lz a, pos, g => starIter (reMatches t a) lz (t.length + 1) pos g
  | .group i a, pos, g =>
      (reMatches t a pos g).map (fun r => (r.1, setGroup r.2 i (pos, r.1)))
  | .boundary, pos, g =>
      let prevW := pos ≠ 0 && (match t.get? (pos - 1) with
                               | some c => wordChar c
                               | none => false)
      let curW := match t.get? pos with
                  | some c => wordChar c
                  | none => false
      if prevW != curW then [(pos, g)] else []

/-- A match: start and stop offsets plus group spans. -/
structure MRes where
  start : Nat
  stop : Nat
  groups : Groups

/-- First match of `re` at a starting position `≥ pos` (Python scans starting
positions left to right and keeps the first, in preference order). -/
def searchFrom (re : RE) (t : List Char) (pos : Nat) : Option MRes :=
  (List.range' pos (t.length + 1 - pos)).findSome? (fun p =>
    match reMatches t re p [] with
    | [] => none
    | r :: _ => some ⟨p, r.1, r.2⟩)

/-- `re.search`. -/
def research (re : RE) (t : List Char) : Option MRes := searchFrom re t 0

/-- The text of capture group `k` of a match. -/
def reGroup (t : List Char) (m : MRes) (k : Nat) : List Char :=
  match m.groups.find? (fun e => e.1 = k) with
  | some (_, a, b) => (t.drop a).take (b - a)
  | none => []

/-- Non-overlapping matches, for `re.findall`. -/
def findallAux (re : RE) (t : List Char) : Nat → Nat → List MRes
  | 0, _ => []
  | fuel + 1, pos =>
      match searchFrom re t pos with
      | none => []
      | some m =>
          m :: findallAux re t fuel (if m.start < m.stop then m.stop else m.stop + 1)

/-- `re.findall` for a pattern with at most one group: group 1 when the
pattern has one, else the whole match. -/
def refindall1 (re : RE) (hasGroup : Bool) (t : List Char) : List (List Char) :=
  (findallAux re t (t.length + 1) 0).map (fun m =>
    if hasGroup then reGroup t m 1 else (t.drop m.start).take (m.stop - m.start))

/-- `re.findall` for a three-group pattern: list of group triples. -/
def refindall3 (re : RE) (t : List Char) : List (List Char × List Char × List Char) :=
  (findallAux re t (t.length + 1) 0).map (fun m =>
    (reGroup t m 1, reGroup t m 2, reGroup t m 3))

/-! ### The patterns used by `_parse_query`, transcribed -/

/-- Single literal character. -/
def rchar (c : Char) : RE := .cls false [(c, c)]

/-- Literal string. -/
def rstr (s : String) : RE := s.toList.foldr (fun c r => .seq (rchar c) r) .eps

/-- Sequence of several. -/
def rseq (l : List RE) : RE := l.foldr .seq .eps

/-- Alternation, left to right. -/
def ralt : List RE → RE
  | [] => .eps
  | [r] => r
  | r :: rest => .alt r (ralt rest)

/-- `\d`. -/
def rdigit : RE := .cls false [('0', '9')]

/-- `\s` (ASCII). -/
def rspace : RE :=
  .cls false [(' ', ' '), ('\t', '\t'), ('\n', '\n'), ('\x0b', '\x0d')]

/-- `.` (anything but a newline). -/
def rdot : RE := .cls true [('\n', '\n')]

/-- Greedy `*`. -/
def star0 (a : RE) : RE := .star false a

/-- Lazy `*?`. -/
def starL (a : RE) : RE := .star true a

/-- Greedy `+`. -/
def plus1 (a : RE) : RE := .seq a (star0 a)

/-- `[a-zA-Z_:]`. -/
def identStartCls : RE := .cls false [('a', 'z'), ('A', 'Z'), ('_', '_'), (':', ':')]

/-- `[a-zA-Z0-9_:]`. -/
def identContCls : RE := .cls false [('a', 'z'), ('A', 'Z'), ('0', '9'), ('_', '_'), (':', ':')]

/-- `([a-zA-Z_:][a-zA-Z0-9_:]*)` as group 1. -/
def identG1 : RE := .group 1 (.seq identStartCls (star0 identContCls))

/-- The `(?:rate|sum|avg|max|min|count|quantile|stddev|stdvar)` prefix. -/
def aggPrefix : RE :=
  ralt (["rate", "sum", "avg", "max", "min", "count", "quantile", "stddev", "stdvar"].map rstr)

/-- `[^}]*`. -/
def nonBraceStar : RE := star0 (.cls true [('\x7d', '\x7d')])

/-- `[^\]]*`. -/
def nonBracketStar : RE := star0 (.cls true [(']', ']')])

/-- Metric pattern 1: function call wrapping a metric with labels. -/
def metricPat1 : RE :=
  rseq [aggPrefix, star0 rspace, rchar '(', star0 rspace, identG1,
        star0 rspace, rchar '\x7b', nonBraceStar, rchar '\x7d']

/-- Metric pattern 2: function call wrapping a metric with a range. -/
def metricPat2 : RE :=
  rseq [aggPrefix, star0 rspace, rchar '(', star0 rspace, identG1,
        star0 rspace, rchar '[', nonBracketStar, rchar ']']

/-- Metric pattern 3: plain function call wrapping a metric. -/
def metricPat3 : RE :=
  rseq [aggPrefix, star0 rspace, rchar '(', star0 rspace, identG1]

/-- Metric pattern 4: `histogram_quantile(...)`. -/
def metricPat4 : RE :=
  rseq [rstr "histogram_quantile", star0 rspace, rchar '(', starL rdot, rchar ',',
        starL rdot, identG1]

/-- Metric pattern 5: metric with labels. -/
def metricPat5 : RE :=
  rseq [identG1, star0 rspace, rchar '\x7b', nonBraceStar, rchar '\x7d']

/-- Metric pattern 6: metric with a range. -/
def metricPat6 : RE :=
  rseq [identG1, star0 rspace, rchar '[', nonBracketStar, rchar ']']

/-- Metric pattern 7: plain metric name followed by `\b`. -/
def metricPat7 : RE := .seq identG1 .boundary

/-- The pattern list tried in order by `_parse_query`. -/
def metric_patterns : List RE :=
  [metricPat1, metricPat2, metricPat3, metricPat4, metricPat5, metricPat6, metricPat7]

/-- `rf'{name}\s*{{([^}}]*)}}'` (the metric name consists of identifier
characters, so `re.escape` leaves it unchanged). -/
def metricLabelsRe (name : List Char) : RE :=
  rseq [rseq (name.map rchar), star0 rspace, rchar '\x7b',
        .group 1 nonBraceStar, rchar '\x7d']

/-- `r'{([^}]*)}'`. -/
def genericLabelsRe : RE :=
  rseq [rchar '\x7b', .group 1 nonBraceStar, rchar '\x7d']

/-- `r'\[([^\]]*)\]'`. -/
def rangeRe : RE := rseq [rchar '[', .group 1 nonBracketStar, rchar ']']

/-- `r'offset\s+(\d+[smhdwy])'`. -/
def offsetRe : RE :=
  rseq [rstr "offset", plus1 rspace,
        .group 1 (.seq (plus1 rdigit) (.cls false [('s', 's'), ('m', 'm'), ('h', 'h'), ('d', 'd'), ('w', 'w'), ('y', 'y')]))]

/-- `rf'{func}\s*\('`. -/
def aggPresentRe (f : String) : RE := rseq [rstr f, star0 rspace, rchar '(']

/-- `rf'{func}.*?by\s*\(\s*([^)]+)\s*\)'`. -/
def byRe (f : String) : RE :=
  rseq [rstr f, starL rdot, rstr "by", star0 rspace, rchar '(', star0 rspace,
        .group 1 (plus1 (.cls true [(')', ')')])), star0 rspace, rchar ')']

/-- `rf'{func}.*?without\s*\(\s*([^)]+)\s*\)'`. -/
def withoutRe (f : String) : RE :=
  rseq [rstr f, starL rdot, rstr "without", star0 rspace, rchar '(', star0 rspace,
        .group 1 (plus1 (.cls true [(')', ')')])), star0 rspace, rchar ')']

/-- `r'rate\s*\([^[]*\[([^\]]+)\]'`. -/
def rateRe : RE :=
  rseq [rstr "rate", star0 rspace, rchar '(', star0 (.cls true [('[', '[')]),
        rchar '[', .group 1 (plus1 (.cls true [(']', ']')])), rchar ']']

/-- `r'histogram_quantile\s*\(\s*(0\.\d+)'`. -/
def hqRe : RE :=
  rseq [rstr "histogram_quantile", star0 rspace, rchar '(', star0 rspace,
        .group 1 (rseq [rstr "0.", plus1 rdigit])]

/-- `rf'\s*{re.escape(op)}\s*([0-9.]+)'`. -/
def opNumRe (op : String) : RE :=
  rseq [star0 rspace, rstr op, star0 rspace,
        .group 1 (plus1 (.cls false [('0', '9'), ('.', '.')]))]

/-- The three-group label-matcher pattern
`r'([a-zA-Z_][a-zA-Z0-9_]*)\s*([=!]=~?|=~|!~)\s*"([^"]*)"'`.  Note the
operator alternative `[=!]=~?` requires two characters, so a plain `=` never
matches. -/
def labelsRe : RE :=
  rseq [.group 1 (.seq (.cls false [('a', 'z'), ('A', 'Z'), ('_', '_')])
                       (star0 (.cls false [('a', 'z'), ('A', 'Z'), ('0', '9'), ('_', '_')]))),
        star0 rspace,
        .group 2 (ralt [rseq [.cls false [('=', '='), ('!', '!')], rchar '=',
                              .alt (rchar '~') .eps],
                        rstr "=~", rstr "!~"]),
        star0 rspace, rchar '"', .group 3 (star0 (.cls true [('"', '"')])), rchar '"']

/-- `r'[a-zA-Z_:][a-zA-Z0-9_:]*'` (no group: `findall` yields whole matches). -/
def wordsRe : RE := .seq identStartCls (star0 identContCls)

/-! ## `_parse_query` -/

namespace PromQLBuilder

/-- Python `str.split(',')`. -/
def splitComma (l : List Char) : List (List Char) :=
  l.foldr (fun c acc =>
    match acc with
    | [] => if c = ',' then [[], []] else [[c]]
    | h :: t => if c = ',' then [] :: h :: t else (c :: h) :: t) [[]]

/-- `_parse_labels` applied to one brace-group payload: regex-extract the
matchers, deduplicate by name in a dict (first position kept, last value
wins), then for each remove same-named labels from the metric and append. -/
def parse_labels (m : MetricSelector) (labels_str : List Char) : MetricSelector :=
  if pyStrip labels_str = [] then m
  else
    let label_matches := (refindall3 labelsRe labels_str).map (fun t =>
      (String.mk t.1, String.mk t.2.1, String.mk t.2.2))
    let deduplicated := label_matches.foldl
      (fun (d : List (String × String × String)) e =>
        if d.any (fun x => x.1 == e.1) then
          d.map (fun x => if x.1 == e.1 then e else x)
        else d ++ [e]) []
    deduplicated.foldl
      (fun m e =>
        { m with labels := m.labels.filter (fun l => l.name != e.1)
            ++ [⟨e.1, e.2.2, e.2.1⟩] }) m

/-- The metric-selector portion of `_parse_query`: try the seven patterns in
order for the name, then labels (name-adjacent braces, else every brace
group), range window, offset. -/
def extractMetric (q : List Char) : Option MetricSelector :=
  match metric_patterns.findSome? (fun p =>
      (research p q).map (fun mm => reGroup q mm 1)) with
  | none => none
  | some nameChars =>
      let m0 : MetricSelector := { name := String.mk nameChars }
      let m1 :=
        match research (metricLabelsRe nameChars) q with
        | some mm => parse_labels m0 (reGroup q mm 1)
        | none => (refindall1 genericLabelsRe true q).foldl parse_labels m0
      let m2 :=
        match research rangeRe q with
        | some mm =>
            let w := String.mk (reGroup q mm 1)
            if durationMatch w then { m1 with range_window := some w } else m1
        | none => m1
      some (match research offsetRe q with
            | some mm => { m2 with offset := some (String.mk (reGroup q mm 1)) }
            | none => m2)

/-- The aggregation-function name list scanned by `_parse_query`. -/
def agg_funcs : List String :=
  ["sum", "avg", "min", "max", "group", "count", "stddev", "stdvar", "topk",
   "bottomk", "quantile"]

/-- The aggregation-function extraction loop: for each name present with a
following `(`, collect its `by` / `without` labels and append a
`Function(func, ["$expr"], by, without)`. -/
def extractAggFns (q : List Char) : List Func :=
  agg_funcs.foldl (fun acc f =>
    if (research (aggPresentRe f) q).isSome then
      let by_labels :=
        match research (byRe f) q with
        | some mm => (splitComma (reGroup q mm 1)).map (fun x => String.mk (pyStrip x))
        | none => []
      let without_labels :=
        match research (withoutRe f) q with
        | some mm => (splitComma (reGroup q mm 1)).map (fun x => String.mk (pyStrip x))
        | none => []
      acc ++ [⟨f, [Arg.astr "$expr"], by_labels, without_labels⟩]
    else acc) []

/-- The `rate` check: may set the metric's range window (when a metric exists
and has no truthy window) and appends `Function('rate', ["$expr"])`. -/
def rateStep (q : List Char) (metric : Option MetricSelector) :
    Option MetricSelector × List Func :=
  match research rateRe q with
  | some mm =>
      let window := String.mk (reGroup q mm 1)
      let metric' :=
        match metric with
        | some m =>
            if !pyTruthyStr m.range_window then some { m with range_window := some window }
            else some m
        | none => none
      (metric', [⟨"rate", [Arg.astr "$expr"], [], []⟩])
  | none => (metric, [])

/-- The `histogram_quantile` check. -/
def hqStep (q : List Char) : List Func :=
  if strContains (String.mk q) "histogram_quantile" then
    match research hqRe q with
    | some mm =>
        [⟨"histogram_quantile",
          [Arg.astr (String.mk (reGroup q mm 1)), Arg.astr "$expr"], [], []⟩]
    | none => []
  else []

/-- The comparison operators probed for a trailing threshold, in order. -/
def binary_op_syms : List String := [">", "<", ">=", "<=", "==", "!="]

/-- The binary-operation extraction loop (stops at the first operator whose
matched value converts to a float). -/
def extractBinary (q : List Char) : List BinaryOperation :=
  let rec go : List String → List BinaryOperation
    | [] => []
    | op :: rest =>
        match research (opNumRe op) q with
        | some mm =>
            match pyFloatOfChars (reGroup q mm 1) with
            | some f => [⟨op, Arg.anum (.pfloat f)⟩]
            | none => go rest
        | none => go rest
  go binary_op_syms

/-- The arithmetic-operation extraction loop (no early stop: every operator
present with a convertible value is appended, in operator-list order). -/
def extractArith (q : List Char) : List ArithmeticOperation :=
  ["+", "-", "*", "/", "%", "^"].foldl (fun acc op =>
    match research (opNumRe op) q with
    | some mm =>
        match pyFloatOfChars (reGroup q mm 1) with
        | some f => acc ++ [⟨op, Arg.anum (.pfloat f), true⟩]
        | none => acc
    | none => acc) []

/-- `PromQLBuilder._parse_query` on the raw query text. -/
def parse_query (q0 : List Char) : Except String BState :=
  let q := pyStrip q0
  let fe := some (String.mk q)
  let metric0 := extractMetric q
  let aggs := extractAggFns q
  let rated := rateStep q metric0
  let fns := aggs ++ rated.2 ++ hqStep q
  let bops := extractBinary q
  let aops := extractArith q
  match rated.1 with
  | some m => .ok ⟨some m, fns, bops, aops, fe⟩
  | none =>
      match refindall1 wordsRe false q with
      | w :: _ => .ok ⟨some { name := String.mk w }, fns, bops, aops, fe⟩
      | [] => .error "Could not parse metric from query"

/-- `PromQLBuilder(query)`: parse when the argument is truthy. -/
def ofQuery (query : String) : Except String BState :=
  if query == "" then .ok init else parse_query query.toList

end PromQLBuilder

/-! ## The `Lexer` class -/

/-- `TokenType`. -/
inductive TokenType where
  | METRIC_NAME | LABEL_NAME | LABEL_VALUE | LABEL_OP | NUMBER | DURATION
  | FUNCTION | GROUPING | ARITHMETIC_OP | BINARY_OP
  | LEFT_BRACE | RIGHT_BRACE | LEFT_BRACKET | RIGHT_BRACKET
  | LEFT_PAREN | RIGHT_PAREN | COMMA | OFFSET | STRING
deriving DecidableEq, Repr

/-- `Token` dataclass. -/
structure Token where
  type : TokenType
  value : String
  position : Nat
deriving DecidableEq, Repr

namespace Lexer

/-- The digit/dot consumption loop of `read_number` (`has_dot` breaks the
loop at a second dot); returns the consumed run and the remaining input. -/
def readNumberAux : List Char → Bool → List Char × List Char
  | [], _ => ([], [])
  | c :: rest, hasDot =>
      if pyIsDigit c then
        let r := readNumberAux rest hasDot
        (c :: r.1, r.2)
      else if c = '.' then
        if hasDot then ([], c :: rest)
        else
          let r := readNumberAux rest true
          (c :: r.1, r.2)
      else ([], c :: rest)

/-- `read_number`: a numeric run, turned into a `DURATION` token when
immediately followed by a unit character. -/
def read_number (input : List Char) (pos : Nat) : Token × List Char × Nat :=
  let r := readNumberAux input false
  match r.2 with
  | c :: rest =>
      if "smhdwy".toList.contains c then
        (⟨.DURATION, String.mk (r.1 ++ [c]), pos⟩, rest, pos + r.1.length + 1)
      else (⟨.NUMBER, String.mk r.1, pos⟩, r.2, pos + r.1.length)
  | [] => (⟨.NUMBER, String.mk r.1, pos⟩, [], pos + r.1.length)

/-- Identifier continuation characters. -/
def identChar (c : Char) : Bool := pyIsAlnum c || c = '_' || c = ':'

/-- `read_identifier`: keyword / function-name / label-name / metric-name
classification via one character of lookahead. -/
def read_identifier (input : List Char) (pos : Nat) : Token × List Char × Nat :=
  let run := input.takeWhile identChar
  let rest := input.drop run.length
  let value := String.mk run
  let tok : Token :=
    if value == "by" || value == "without" then ⟨.GROUPING, value, pos⟩
    else if value == "offset" then ⟨.OFFSET, value, pos⟩
    else
      match rest with
      | '(' :: _ => ⟨.FUNCTION, value, pos⟩
      | c :: _ =>
          if c = '=' || c = '!' || c = '~' then ⟨.LABEL_NAME, value, pos⟩
          else ⟨.METRIC_NAME, value, pos⟩
      | [] => ⟨.METRIC_NAME, value, pos⟩
  (tok, rest, pos + run.length)

/-- The body of `read_string` after the opening quote: collect characters up
to an unescaped closing quote (a backslash makes the next character literal);
returns the collected value, the remaining input and the number of characters
consumed (including the closing quote when present). -/
def readStringAux : List Char → List Char × List Char × Nat
  | [] => ([], [], 0)
  | c :: rest =>
      if c = '"' then ([], rest, 1)
      else if c = '\\' then
        match rest with
        | [] => ([], [], 1)
        | d :: rest' =>
            let r := readStringAux rest'
            (d :: r.1, r.2.1, r.2.2 + 2)
      else
        let r := readStringAux rest
        (c :: r.1, r.2.1, r.2.2 + 1)

/-- `read_string` (entered at the opening quote). -/
def read_string (input : List Char) (pos : Nat) : Token × List Char × Nat :=
  match input with
  | _ :: afterQuote =>
      let r := readStringAux afterQuote
      (⟨.STRING, String.mk r.1, pos⟩, r.2.1, pos + 1 + r.2.2)
  | [] => (⟨.STRING, "", pos⟩, [], pos)

/-- `read_operator`: one operator character, extended by a following `=` or
`~`, classified as label / comparison / arithmetic operator. -/
def read_operator (c : Char) (rest : List Char) (pos : Nat) : Token × List Char × Nat :=
  let ext := match rest with
    | d :: rest' => if d = '=' || d = '~' then (String.mk [c, d], rest', pos + 2)
                    else (String.mk [c], rest, pos + 1)
    | [] => (String.mk [c], rest, pos + 1)
  let op := ext.1
  let tok : Token :=
    if op == "=" || op == "!=" || op == "=~" || op == "!~" then ⟨.LABEL_OP, op, pos⟩
    else if op == ">" || op == "<" || op == ">=" || op == "<=" || op == "==" || op == "!=" then
      ⟨.BINARY_OP, op, pos⟩
    else ⟨.ARITHMETIC_OP, op, pos⟩
  (tok, ext.2.1, ext.2.2)

/-- Operator start characters recognised by `tokenize`. -/
def opStart (c : Char) : Bool :=
  c = '=' || c = '!' || c = '<' || c = '>' || c = '+' || c = '-' || c = '*' ||
  c = '/' || c = '%' || c = '^'

/-- The main `tokenize` loop (fuelled; every iteration consumes at least one
character, so `length + 1` fuel always suffices). -/
def tokenizeAux : Nat → List Char → Nat → Except String (List Token)
  | 0, _, _ => .error "out of fuel"
  | _ + 1, [], _ => .ok []
  | fuel + 1, c :: rest, pos =>
      if pyIsSpace c then tokenizeAux fuel rest (pos + 1)
      else if pyIsDigit c then
        let r := read_number (c :: rest) pos
        (tokenizeAux fuel r.2.1 r.2.2).map (fun ts => r.1 :: ts)
      else if pyIsAlpha c || c = '_' then
        let r := read_identifier (c :: rest) pos
        (tokenizeAux fuel r.2.1 r.2.2).map (fun ts => r.1 :: ts)
      else if c = '"' then
        let r := read_string (c :: rest) pos
        (tokenizeAux fuel r.2.1 r.2.2).map (fun ts => r.1 :: ts)
      else if opStart c then
        let r := read_operator c rest pos
        (tokenizeAux fuel r.2.1 r.2.2).map (fun ts => r.1 :: ts)
      else if c = '\x7b' then
        (tokenizeAux fuel rest (pos + 1)).map (fun ts => ⟨.LEFT_BRACE, "\x7b", pos⟩ :: ts)
      else if c = '\x7d' then
        (tokenizeAux fuel rest (pos + 1)).map (fun ts => ⟨.RIGHT_BRACE, "\x7d", pos⟩ :: ts)
      else if c = '[' then
        (tokenizeAux fuel rest (pos + 1)).map (fun ts => ⟨.LEFT_BRACKET, "[", pos⟩ :: ts)
      else if c = ']' then
        (tokenizeAux fuel rest (pos + 1)).map (fun ts => ⟨.RIGHT_BRACKET, "]", pos⟩ :: ts)
      else if c = '(' then
        (tokenizeAux fuel rest (pos + 1)).map (fun ts => ⟨.LEFT_PAREN, "(", pos⟩ :: ts)
      else if c = ')' then
        (tokenizeAux fuel rest (pos + 1)).map (fun ts => ⟨.RIGHT_PAREN, ")", pos⟩ :: ts)
      else if c = ',' then
        (tokenizeAux fuel rest (pos + 1)).map (fun ts => ⟨.COMMA, ",", pos⟩ :: ts)
      else .error ("Invalid character " ++ String.mk [c] ++ " at position " ++ toString pos)

/-- `Lexer(text).tokenize()`. -/
def tokenize (text : List Char) : Except String (List Token) :=
  tokenizeAux (text.length + 1) text 0

end Lexer

/-! ## The recursive-descent `Parser` class

Its methods return Python's dynamic union of `MetricSelector`, `Function`,
`BinaryOperation`, floats, strings and `(left, op, right)` tuples, modelled
by the closed union `PVal`.  Only parse success and the consumed-token count
matter to the theorems below (the class formalises which strings the grammar
of the query language accepts). -/

/-- Dynamic values produced by the descent parser. -/
inductive PVal where
  | vnum (f : PyFloat)
  | vstr (s : String)
  | vmetric (m : MetricSelector)
  | vfunc (name : String) (args : List PVal) (group_by : List String) (without : List String)
  | vbinop (op : String) (right : PVal)
  | vtuple (left : PVal) (op : String) (right : PVal)

namespace Parser

/-- `current_token()`. -/
def cur (toks : List Token) (pos : Nat) : Option Token := toks.get? pos

/-- `expect(token_type)`. -/
def expect (toks : List Token) (pos : Nat) (tt : TokenType) : Except String (Token × Nat) :=
  match cur toks pos with
  | some t => if t.type == tt then .ok (t, pos + 1) else .error "Expected token mismatch"
  | none => .error "Expected token, got EOF"

/-- `parse_label_matchers` (fuelled loop). -/
def parseLabelMatchers (toks : List Token) :
    Nat → Nat → Except String (List LabelMatcher × Nat)
  | 0, _ => .error "out of fuel"
  | fuel + 1, pos => do
      let (nameTok, pos) ←
        match cur toks pos with
        | some t =>
            if t.type == .LABEL_NAME || t.type == .METRIC_NAME then .ok (t, pos + 1)
            else .error "Expected label name"
        | none => .error "Expected label name, got EOF"
      let (opTok, pos) ← expect toks pos .LABEL_OP
      let (valTok, pos) ← expect toks pos .STRING
      let matcher : LabelMatcher := ⟨nameTok.value, valTok.value, opTok.value⟩
      match cur toks pos with
      | none => .ok ([matcher], pos)
      | some t =>
          if t.type == .RIGHT_BRACE then .ok ([matcher], pos)
          else do
            let (_, pos) ← expect toks pos .COMMA
            let (rest, pos) ← parseLabelMatchers toks fuel pos
            .ok (matcher :: rest, pos)

/-- `parse_metric`. -/
def parseMetric (toks : List Token) (fuel pos : Nat) :
    Except String (MetricSelector × Nat) := do
  let (nameTok, pos) ← expect toks pos .METRIC_NAME
  let (labels, pos) ←
    match cur toks pos with
    | some t =>
        if t.type == .LEFT_BRACE then do
          let (ls, pos) ← parseLabelMatchers toks fuel (pos + 1)
          let (_, pos) ← expect toks pos .RIGHT_BRACE
          .ok (ls, pos)
        else .ok ([], pos)
    | none => .ok ([], pos)
  let (range, pos) ←
    match cur toks pos with
    | some t =>
        if t.type == .LEFT_BRACKET then do
          let (d, pos) ← expect toks (pos + 1) .DURATION
          let (_, pos) ← expect toks pos .RIGHT_BRACKET
          .ok (some d.value, pos)
        else .ok (none, pos)
    | none => .ok (none, pos)
  let (ofs, pos) ←
    match cur toks pos with
    | some t =>
        if t.type == .OFFSET then do
          let (d, pos) ← expect toks (pos + 1) .DURATION
          .ok (some d.value, pos)
        else .ok (none, pos)
    | none => .ok (none, pos)
  .ok (⟨nameTok.value, labels, range, ofs⟩, pos)

/-- The name-collecting loop of `parse_grouping` (fuelled). -/
def parseGroupingNames (toks : List Token) :
    Nat → Nat → Except String (List String × Nat)
  | 0, _ => .error "out of fuel"
  | fuel + 1, pos =>
      match cur toks pos with
      | none => do
          let (_, pos) ← expect toks pos .RIGHT_PAREN
          .ok ([], pos)
      | some t =>
          if t.type == .RIGHT_PAREN then .ok ([], pos + 1)
          else do
            let (name, pos) ←
              if t.type == .LABEL_NAME || t.type == .METRIC_NAME then
                .ok (t.value, pos + 1)
              else .error "Expected label name"
            match cur toks pos with
            | some t' =>
                if t'.type == .COMMA then do
                  let (rest, pos) ← parseGroupingNames toks fuel (pos + 1)
                  .ok (name :: rest, pos)
                else if t'.type == .RIGHT_PAREN then .ok ([name], pos + 1)
                else .error "Expected comma or right parenthesis"
            | none => .error "Expected comma or right parenthesis"

/-- `parse_grouping`: a `by`/`without` clause, or empty lists if the current
token is not `GROUPING`. -/
def parseGrouping (toks : List Token) (fuel pos : Nat) :
    Except String ((List String × List String) × Nat) :=
  match cur toks pos with
  | some t =>
      if t.type == .GROUPING then do
        let (_, pos) ← expect toks (pos + 1) .LEFT_PAREN
        let (labels, pos) ← parseGroupingNames toks fuel pos
        if t.value == "by" then .ok ((labels, []), pos) else .ok (([], labels), pos)
      else .ok (([], []), pos)
  | none => .ok (([], []), pos)

mutual

/-- `parse_function_args` (fuelled loop). -/
def parseFunctionArgs (toks : List Token) :
    Nat → Nat → Except String (List PVal × Nat)
  | 0, _ => .error "out of fuel"
  | fuel + 1, pos =>
      match cur toks pos with
      | some t =>
          if t.type == .RIGHT_PAREN then .ok ([], pos)
          else do
            let (arg, pos) ←
              if t.type == .NUMBER then
                match pyFloatOfChars t.value.toList with
                | some f => .ok (PVal.vnum f, pos + 1)
                | none => .error "float conversion"
              else if t.type == .STRING then .ok (PVal.vstr t.value, pos + 1)
              else parseExpression toks fuel pos
            match cur toks pos with
            | none => .ok ([arg], pos)
            | some t' =>
                if t'.type == .RIGHT_PAREN then .ok ([arg], pos)
                else if t'.type == .COMMA then do
                  let (rest, pos) ← parseFunctionArgs toks fuel (pos + 1)
                  .ok (arg :: rest, pos)
                else .error "Expected comma or right parenthesis"
      | none => .ok ([], pos)

/-- `parse_function`. -/
def parseFunction (toks : List Token) :
    Nat → Nat → Except String (PVal × Nat)
  | 0, _ => .error "out of fuel"
  | fuel + 1, pos => do
      let (nameTok, pos) ← expect toks pos .FUNCTION
      let (_, pos) ← expect toks pos .LEFT_PAREN
      let (args, pos) ← parseFunctionArgs toks fuel pos
      let (_, pos) ← expect toks pos .RIGHT_PAREN
      let (grouping, pos) ← parseGrouping toks fuel pos
      .ok (PVal.vfunc nameTok.value args grouping.1 grouping.2, pos)
termination_by structural fuel => fuel

/-- `parse_binary_op`. -/
def parseBinaryOp (toks : List Token) :
    Nat → PVal → Nat → Except String (PVal × Nat)
  | 0, _, _ => .error "out of fuel"
  | fuel + 1, left, pos =>
      match cur toks pos with
      | some t =>
          if t.type == .BINARY_OP then do
            let pos := pos + 1
            match cur toks pos with
            | some t' =>
                if t'.type == .NUMBER then
                  match pyFloatOfChars t'.value.toList with
                  | some f => .ok (PVal.vbinop t.value (PVal.vnum f), pos + 1)
                  | none => .error "float conversion"
                else do
                  let (right, pos) ← parseExpression toks fuel pos
                  .ok (PVal.vbinop t.value right, pos)
            | none => do
                let (right, pos) ← parseExpression toks fuel pos
                .ok (PVal.vbinop t.value right, pos)
          else .ok (left, pos)
      | none => .ok (left, pos)
termination_by structural fuel _ => fuel

/-- `parse_arithmetic_op`. -/
def parseArithmeticOp (toks : List Token) :
    Nat → PVal → Nat → Except String (PVal × Nat)
  | 0, _, _ => .error "out of fuel"
  | fuel + 1, left, pos =>
      match cur toks pos with
      | some t =>
          if t.type == .ARITHMETIC_OP then do
            let pos := pos + 1
            match cur toks pos with
            | some t' =>
                if t'.type == .NUMBER then
                  match pyFloatOfChars t'.value.toList with
                  | some f => .ok (PVal.vtuple left t.value (PVal.vnum f), pos + 1)
                  | none => .error "float conversion"
                else do
                  let (right, pos) ← parseExpression toks fuel pos
                  .ok (PVal.vtuple left t.value right, pos)
            | none => do
                let (right, pos) ← parseExpression toks fuel pos
                .ok (PVal.vtuple left t.value right, pos)
          else .ok (left, pos)
      | none => .ok (left, pos)
termination_by structural fuel _ => fuel

/-- `parse_expression`. -/
def parseExpression (toks : List Token) :
    Nat → Nat → Except String (PVal × Nat)
  | 0, _ => .error "out of fuel"
  | fuel + 1, pos =>
      match cur toks pos with
      | none => .error "Unexpected end of input"
      | some t =>
          if t.type == .LEFT_PAREN then do
            let (left, pos) ← parseExpression toks fuel (pos + 1)
            let (_, pos) ← expect toks pos .RIGHT_PAREN
            match cur toks pos with
            | some t' =>
                if t'.type == .ARITHMETIC_OP then parseArithmeticOp toks fuel left pos
                else if t'.type == .BINARY_OP then parseBinaryOp toks fuel left pos
                else .ok (left, pos)
            | none => .ok (left, pos)
          else if t.type == .FUNCTION then do
            let (func, pos) ← parseFunction toks fuel pos
            let (func, pos) ←
              match cur toks pos with
              | some t' =>
                  if t'.type == .GROUPING then do
                    let (grouping, pos) ← parseGrouping toks fuel pos
                    match func with
                    | PVal.vfunc n args _ _ =>
                        .ok (PVal.vfunc n args grouping.1 grouping.2, pos)
                    | other => .ok (other, pos)
                  else .ok (func, pos)
              | none => .ok (func, pos)
            match cur toks pos with
            | some t' =>
                if t'.type == .ARITHMETIC_OP then parseArithmeticOp toks fuel func pos
                else if t'.type == .BINARY_OP then parseBinaryOp toks fuel func pos
                else .ok (func, pos)
            | none => .ok (func, pos)
          else if t.type == .METRIC_NAME then do
            let (metric, pos) ← parseMetric toks fuel pos
            match cur toks pos with
            | some t' =>
                if t'.type == .ARITHMETIC_OP then
                  parseArithmeticOp toks fuel (PVal.vmetric metric) pos
                else if t'.type == .BINARY_OP then
                  parseBinaryOp toks fuel (PVal.vmetric metric) pos
                else .ok (PVal.vmetric metric, pos)
            | none => .ok (PVal.vmetric metric, pos)
          else .error "Unexpected token"
termination_by structural fuel => fuel

end

end Parser

/-- A query string is accepted by the query grammar when it tokenizes
without a lexical error and the recursive-descent parser recognises a single
expression consuming every token. -/
def acceptedByGrammar (q : String) : Bool :=
  match Lexer.tokenize q.toList with
  | .error _ => false
  | .ok toks =>
      match Parser.parseExpression toks (toks.length + 1) 0 with
      | .ok r => r.2 == toks.length
      | .error _ => false

/-! ## Heap model of builder aliasing

Python builders hold references to mutable objects: the `MetricSelector`
object (whose `labels` attribute references a list object) and the three
top-level lists.  To state clone independence — a claim about aliasing — the
mutators are replayed over an explicit heap of such objects.  Each mutator
mirrors the source's writes: in-place list mutation updates a cell,
attribute rebinding to a fresh list allocates a new cell. -/

/-- A heap cell: a mutable Python object relevant to builder state. -/
inductive HCell where
  | metricCell (name : String) (labelsRef : Nat) (range_window : Option String)
      (offset : Option String)
  | labelList (ls : List LabelMatcher)
  | funcList (fs : List Func)
  | binList (bs : List BinaryOperation)
  | ariList (ops : List ArithmeticOperation)

/-- A heap: an association of addresses to cells plus the allocation bound. -/
structure Heap where
  cells : List (Nat × HCell)
  next : Nat

/-- Dereference. -/
def Heap.get (h : Heap) (a : Nat) : Option HCell :=
  (h.cells.find? (fun e => e.1 == a)).map (·.2)

/-- Overwrite the cell at an existing address. -/
def Heap.set (h : Heap) (a : Nat) (c : HCell) : Heap :=
  { h with cells := h.cells.map (fun e => if e.1 == a then (a, c) else e) }

/-- Allocate a fresh object. -/
def Heap.alloc (h : Heap) (c : HCell) : Nat × Heap :=
  (h.next, ⟨(h.next, c) :: h.cells, h.next + 1⟩)

/-- The empty heap. -/
def Heap.empty : Heap := ⟨[], 0⟩

/-- A builder object: attribute values, with references for the mutable
parts. -/
structure HBuilder where
  metric : Option Nat
  functions : Nat
  binary_ops : Nat
  arithmetic_ops : Nat
  full_expression : Option String

namespace HBuilder

/-- `PromQLBuilder()`: allocates the three empty lists. -/
def new (h : Heap) : HBuilder × Heap :=
  let f := h.alloc (.funcList [])
  let b := f.2.alloc (.binList [])
  let a := b.2.alloc (.ariList [])
  (⟨none, f.1, b.1, a.1, none⟩, a.2)

/-- The addresses a builder owns: its three lists, its metric object and the
metric's labels list. -/
def ownAddrs (b : HBuilder) (h : Heap) : List Nat :=
  [b.functions, b.binary_ops, b.arithmetic_ops] ++
    (match b.metric with
     | none => []
     | some ma =>
         ma :: (match h.get ma with
                | some (.metricCell _ la _ _) => [la]
                | _ => []))

/-- Heap-level well-formedness of a builder: every reference resolves to a
cell of the right kind and is below the allocation bound. -/
def wf (b : HBuilder) (h : Heap) : Bool :=
  (match h.get b.functions with | some (.funcList _) => true | _ => false) &&
  (match h.get b.binary_ops with | some (.binList _) => true | _ => false) &&
  (match h.get b.arithmetic_ops with | some (.ariList _) => true | _ => false) &&
  b.functions < h.next && b.binary_ops < h.next && b.arithmetic_ops < h.next &&
  (match b.metric with
   | none => true
   | some ma =>
       ma < h.next &&
       match h.get ma with
       | some (.metricCell _ la _ _) =>
           la < h.next &&
           (match h.get la with | some (.labelList _) => true | _ => false)
       | _ => false)

/-- Read back the pure builder state (fails on a dangling or ill-kinded
reference). -/
def readState (b : HBuilder) (h : Heap) : Option BState := do
  let metric ←
    match b.metric with
    | none => some none
    | some ma =>
        match h.get ma with
        | some (.metricCell name la range ofs) =>
            match h.get la with
            | some (.labelList ls) => some (some (⟨name, ls, range, ofs⟩ : MetricSelector))
            | _ => none
        | _ => none
  let fns ← match h.get b.functions with | some (.funcList fs) => some fs | _ => none
  let bops ← match h.get b.binary_ops with | some (.binList bs) => some bs | _ => none
  let aops ← match h.get b.arithmetic_ops with | some (.ariList ops) => some ops | _ => none
  some ⟨metric, fns, bops, aops, b.full_expression⟩

/-- `build()` on the heap representation. -/
def buildH (b : HBuilder) (h : Heap) : Except String String :=
  match readState b h with
  | some st => PromQLBuilder.build st
  | none => .error "dangling reference"

/-- The `full_expression` invalidation epilogue on the builder object. -/
def clearFeH (b : HBuilder) : HBuilder :=
  match b.full_expression with
  | some s => if s ≠ "" then { b with full_expression := none } else b
  | none => b

/-- `with_metric`: rebinds `self.metric` to a freshly constructed
`MetricSelector` (with its own fresh labels list). -/
def with_metricH (b : HBuilder) (h : Heap) (name : String) : HBuilder × Heap :=
  let la := h.alloc (.labelList [])
  let ma := la.2.alloc (.metricCell name la.1 none none)
  ({ b with metric := some ma.1 }, ma.2)

/-- `remove_label`: rebinds `self.metric.labels` to a new filtered list. -/
def remove_labelH (b : HBuilder) (h : Heap) (name : String) :
    Except String (HBuilder × Heap) :=
  match b.metric with
  | none => .error "No metric selected"
  | some ma =>
      match h.get ma with
      | some (.metricCell mn la range ofs) =>
          match h.get la with
          | some (.labelList ls) =>
              let fresh := h.alloc (.labelList (ls.filter (fun l => l.name != name)))
              .ok (clearFeH b, fresh.2.set ma (.metricCell mn fresh.1 range ofs))
          | _ => .error "dangling reference"
      | _ => .error "dangling reference"

/-- `with_label`: validate, `remove_label`, then append in place to the
labels list. -/
def with_labelH (b : HBuilder) (h : Heap) (name value operator : String) :
    Except String (HBuilder × Heap) :=
  match b.metric with
  | none => .error "No metric selected"
  | some _ =>
      if PromQLBuilder.validLabelOps.contains operator then do
        let r ← remove_labelH b h name
        let b := r.1
        let h := r.2
        match b.metric with
        | none => .error "No metric selected"
        | some ma =>
            match h.get ma with
            | some (.metricCell _ la _ _) =>
                match h.get la with
                | some (.labelList ls) =>
                    .ok (clearFeH b, h.set la (.labelList (ls ++ [⟨name, value, operator⟩])))
                | _ => .error "dangling reference"
            | _ => .error "dangling reference"
      else .error ("Invalid operator: " ++ operator)

/-- `with_range`. -/
def with_rangeH (b : HBuilder) (h : Heap) (window : String) :
    Except String (HBuilder × Heap) :=
  match b.metric with
  | none => .error "No metric selected"
  | some ma => do
      let w ← PromQLBuilder.parse_duration window
      match h.get ma with
      | some (.metricCell mn la _ ofs) =>
          .ok (clearFeH b, h.set ma (.metricCell mn la (some w) ofs))
      | _ => .error "dangling reference"

/-- `with_offset`. -/
def with_offsetH (b : HBuilder) (h : Heap) (offset : String) :
    Except String (HBuilder × Heap) :=
  match b.metric with
  | none => .error "No metric selected"
  | some ma => do
      let o ← PromQLBuilder.parse_duration offset
      match h.get ma with
      | some (.metricCell mn la range _) =>
          .ok (clearFeH b, h.set ma (.metricCell mn la range (some o)))
      | _ => .error "dangling reference"

/-- `with_function`: replace in place / append in place on the functions
list object. -/
def with_functionH (b : HBuilder) (h : Heap) (name : String) (args : List Arg)
    (by_labels without_labels : Option (List String)) :
    Except String (HBuilder × Heap) :=
  let func : Func := ⟨name, args, by_labels.getD [], without_labels.getD []⟩
  match h.get b.functions with
  | some (.funcList fs) =>
      let fs' :=
        match fs.findIdx? (fun f => f.name == name) with
        | some i => fs.set i func
        | none => fs ++ [func]
      .ok (clearFeH b, h.set b.functions (.funcList fs'))
  | _ => .error "dangling reference"

/-- `with_rate`. -/
def with_rateH (b : HBuilder) (h : Heap) (window : String) :
    Except String (HBuilder × Heap) :=
  match b.metric with
  | none => .error "No metric selected"
  | some ma => do
      let w ← PromQLBuilder.parse_duration window
      match h.get ma with
      | some (.metricCell mn la _ ofs) =>
          with_functionH (clearFeH b) (h.set ma (.metricCell mn la (some w) ofs))
            "rate" [Arg.astr "$expr"] none none
      | _ => .error "dangling reference"

/-- `with_binary_op`: validate then append in place. -/
def with_binary_opH (b : HBuilder) (h : Heap) (operator : String) (value : Arg) :
    Except String (HBuilder × Heap) :=
  if PromQLBuilder.validBinaryOps.contains operator then
    match h.get b.binary_ops with
    | some (.binList bs) =>
        .ok (clearFeH b, h.set b.binary_ops (.binList (bs ++ [⟨operator, value⟩])))
    | _ => .error "dangling reference"
  else .error ("Invalid operator: " ++ operator)

/-- `with_arithmetic_op`: validate then append in place. -/
def with_arithmetic_opH (b : HBuilder) (h : Heap) (operator : String) (value : Arg) :
    Except String (HBuilder × Heap) :=
  if PromQLBuilder.validArithmeticOps.contains operator then
    match h.get b.arithmetic_ops with
    | some (.ariList ops) =>
        .ok (clearFeH b, h.set b.arithmetic_ops
          (.ariList (ops ++ [⟨operator, value, PromQLBuilder.argIsScalar value⟩])))
    | _ => .error "dangling reference"
  else .error ("Invalid operator: " ++ operator)

/-- `remove_function`: rebinds `self.functions` to a new filtered list. -/
def remove_functionH (b : HBuilder) (h : Heap) (name : String) :
    Except String (HBuilder × Heap) :=
  match h.get b.functions with
  | some (.funcList fs) =>
      let fresh := h.alloc (.funcList (fs.filter (fun f => f.name != name)))
      .ok (clearFeH { b with functions := fresh.1 }, fresh.2)
  | _ => .error "dangling reference"

/-- `remove_binary_op`: pops in place. -/
def remove_binary_opH (b : HBuilder) (h : Heap) : Except String (HBuilder × Heap) :=
  match h.get b.binary_ops with
  | some (.binList bs) =>
      .ok (clearFeH b, h.set b.binary_ops (.binList bs.dropLast))
  | _ => .error "dangling reference"

/-- `remove_arithmetic_op`: pops in place. -/
def remove_arithmetic_opH (b : HBuilder) (h : Heap) : Except String (HBuilder × Heap) :=
  match h.get b.arithmetic_ops with
  | some (.ariList ops) =>
      .ok (clearFeH b, h.set b.arithmetic_ops (.ariList ops.dropLast))
  | _ => .error "dangling reference"

/-- `remove_range`. -/
def remove_rangeH (b : HBuilder) (h : Heap) : Except String (HBuilder × Heap) :=
  match b.metric with
  | none => .ok (clearFeH b, h)
  | some ma =>
      match h.get ma with
      | some (.metricCell mn la _ ofs) =>
          .ok (clearFeH b, h.set ma (.metricCell mn la none ofs))
      | _ => .error "dangling reference"

/-- `remove_offset`. -/
def remove_offsetH (b : HBuilder) (h : Heap) : Except String (HBuilder × Heap) :=
  match b.metric with
  | none => .ok (clearFeH b, h)
  | some ma =>
      match h.get ma with
      | some (.metricCell mn la range _) =>
          .ok (clearFeH b, h.set ma (.metricCell mn la range none))
      | _ => .error "dangling reference"

/-- Modelled from the spec: `clone()` is absent from `src/` (only its tests
and callers are present).  Per §4.3 it "returns a new builder with
independently-owned deep copies of `metric` (including its labels list),
`functions` (including each function's args/group_by/without lists),
`arithmetic_ops`, `comparison_ops`"; `raw_text` need not be copied (the
clone starts in structured mode).  Every referenced object is therefore
reallocated fresh. -/
def cloneH (b : HBuilder) (h : Heap) : Except String (HBuilder × Heap) := do
  let metricPart ←
    match b.metric with
    | none => Except.ok (fun (h : Heap) => ((none : Option Nat), h))
    | some ma =>
        match h.get ma with
        | some (.metricCell mn la range ofs) =>
            match h.get la with
            | some (.labelList ls) =>
                Except.ok (fun (h : Heap) =>
                  let fla := h.alloc (.labelList ls)
                  let fma := fla.2.alloc (.metricCell mn fla.1 range ofs)
                  (some fma.1, fma.2))
            | _ => Except.error "dangling reference"
        | _ => Except.error "dangling reference"
  let fns ← match h.get b.functions with
            | some (.funcList fs) => Except.ok fs
            | _ => Except.error "dangling reference"
  let bops ← match h.get b.binary_ops with
             | some (.binList bs) => Except.ok bs
             | _ => Except.error "dangling reference"
  let aops ← match h.get b.arithmetic_ops with
             | some (.ariList ops) => Except.ok ops
             | _ => Except.error "dangling reference"
  let m := metricPart h
  let ff := m.2.alloc (.funcList fns)
  let fb := ff.2.alloc (.binList bops)
  let fa := fb.2.alloc (.ariList aops)
  .ok (⟨m.1, ff.1, fb.1, fa.1, none⟩, fa.2)

end HBuilder

/-- One mutator invocation, with its arguments. -/
inductive Mutation where
  | mWithMetric (name : String)
  | mWithLabel (name value operator : String)
  | mWithRange (window : String)
  | mWithOffset (offset : String)
  | mWithFunction (name : String) (args : List Arg)
      (by_labels without_labels : Option (List String))
  | mWithRate (window : String)
  | mWithBinaryOp (operator : String) (value : Arg)
  | mWithArithmeticOp (operator : String) (value : Arg)
  | mRemoveLabel (name : String)
  | mRemoveFunction (name : String)
  | mRemoveBinaryOp
  | mRemoveArithmeticOp
  | mRemoveRange
  | mRemoveOffset

/-- Interpret a mutator call on the heap representation. -/
def applyMutation (m : Mutation) (b : HBuilder) (h : Heap) :
    Except String (HBuilder × Heap) :=
  match m with
  | .mWithMetric name => .ok (b.with_metricH h name)
  | .mWithLabel name value operator => b.with_labelH h name value operator
  | .mWithRange w => b.with_rangeH h w
  | .mWithOffset o => b.with_offsetH h o
  | .mWithFunction name args byl wol => b.with_functionH h name args byl wol
  | .mWithRate w => b.with_rateH h w
  | .mWithBinaryOp op v => b.with_binary_opH h op v
  | .mWithArithmeticOp op v => b.with_arithmetic_opH h op v
  | .mRemoveLabel name => b.remove_labelH h name
  | .mRemoveFunction name => b.remove_functionH h name
  | .mRemoveBinaryOp => b.remove_binary_opH h
  | .mRemoveArithmeticOp => b.remove_arithmetic_opH h
  | .mRemoveRange => b.remove_rangeH h
  | .mRemoveOffset => b.remove_offsetH h

/-- Run a sequence of mutator calls; a raising call leaves the state as it
was (the exception propagates to the caller, who keeps the builder). -/
def applyMutations (ms : List Mutation) (b : HBuilder) (h : Heap) : HBuilder × Heap :=
  ms.foldl (fun s m =>
    match applyMutation m s.1 s.2 with
    | .ok s' => s'
    | .error _ => s) (b, h)

/-- Interpret a mutator call on the pure builder state (`with_metric` cannot
raise; it is wrapped in `ok`). -/
def applyMutationP (m : Mutation) (st : BState) : Except String BState :=
  match m with
  | .mWithMetric name => .ok (PromQLBuilder.with_metric st name)
  | .mWithLabel name value operator => PromQLBuilder.with_label st name value operator
  | .mWithRange w => PromQLBuilder.with_range st w
  | .mWithOffset o => PromQLBuilder.with_offset st o
  | .mWithFunction name args byl wol =>
      .ok (PromQLBuilder.with_function st name args byl wol)
  | .mWithRate w => PromQLBuilder.with_rate st w
  | .mWithBinaryOp op v => PromQLBuilder.with_binary_op st op v
  | .mWithArithmeticOp op v => PromQLBuilder.with_arithmetic_op st op v
  | .mRemoveLabel name => PromQLBuilder.remove_label st name
  | .mRemoveFunction name => .ok (PromQLBuilder.remove_function st name)
  | .mRemoveBinaryOp => .ok (PromQLBuilder.remove_binary_op st)
  | .mRemoveArithmeticOp => .ok (PromQLBuilder.remove_arithmetic_op st)
  | .mRemoveRange => .ok (PromQLBuilder.remove_range st)
  | .mRemoveOffset => .ok (PromQLBuilder.remove_offset st)

/-- Keys present in the cell list are below the allocation bound. -/
def Heap.wfHeap (h : Heap) : Bool := h.cells.all (fun e => e.1 < h.next)

/-- What one mutator call preserves: the allocation bound grows, unowned
existing cells are untouched, owned addresses stay owned or are fresh, and
heap well-formedness is kept. -/
def FrameOk (b : HBuilder) (h : Heap) (b' : HBuilder) (h' : Heap) : Prop :=
  h.next ≤ h'.next ∧
  (∀ a, a ∉ b.ownAddrs h → a < h.next → h'.get a = h.get a) ∧
  (∀ a ∈ b'.ownAddrs h', a ∈ b.ownAddrs h ∨ h.next ≤ a) ∧
  h'.wfHeap = true

/-! # Theorems -/

namespace PromQLBuilder

/-- `clearFe` never changes the metric. -/
theorem clearFe_metric (st : BState) : (clearFe st).metric = st.metric := by
  unfold clearFe
  cases st.full_expression with
  | none => rfl
  | some s => by_cases h : s = "" <;> simp [h]

/-- `clearFe` never changes the functions list. -/
theorem clearFe_functions (st : BState) : (clearFe st).functions = st.functions := by
  unfold clearFe
  cases st.full_expression with
  | none => rfl
  | some s => by_cases h : s = "" <;> simp [h]

/-- `clearFe` never changes the binary operations. -/
theorem clearFe_binary_ops (st : BState) : (clearFe st).binary_ops = st.binary_ops := by
  unfold clearFe
  cases st.full_expression with
  | none => rfl
  | some s => by_cases h : s = "" <;> simp [h]

/-- `clearFe` never changes the arithmetic operations. -/
theorem clearFe_arithmetic_ops (st : BState) :
    (clearFe st).arithmetic_ops = st.arithmetic_ops := by
  unfold clearFe
  cases st.full_expression with
  | none => rfl
  | some s => by_cases h : s = "" <;> simp [h]

/-- `clearFe` on a state whose `full_expression` is a nonempty string
invalidates it. -/
theorem clearFe_fe_of_truthy (st : BState) (fe : String)
    (hfe : st.full_expression = some fe) (hne : fe ≠ "") :
    (clearFe st).full_expression = none := by
  unfold clearFe
  rw [hfe]
  simp [hne]

/-- `clearFe` keeps an already-cleared `full_expression` cleared. -/
theorem clearFe_fe_of_none (st : BState) (hfe : st.full_expression = none) :
    (clearFe st).full_expression = none := by
  unfold clearFe
  rw [hfe]
  exact hfe

/-- `clearFe` is the identity on a state with no `full_expression`. -/
theorem clearFe_of_none (st : BState) (hfe : st.full_expression = none) :
    clearFe st = st := by
  unfold clearFe
  rw [hfe]

/-- Characterisation of a successful `with_label` call. -/
theorem with_label_ok (st : BState) (m : MetricSelector) (n v o : String)
    (hm : st.metric = some m) (ho : validLabelOps.contains o = true) :
    ∃ st', with_label st n v o = .ok st' ∧
      st'.metric = some { m with
        labels := m.labels.filter (fun l => l.name != n) ++ [⟨n, v, o⟩] } ∧
      st'.functions = st.functions ∧
      st'.binary_ops = st.binary_ops ∧
      st'.arithmetic_ops = st.arithmetic_ops ∧
      (∀ fe, st.full_expression = some fe → fe ≠ "" → st'.full_expression = none) := by
  have h1 : remove_label st n =
      .ok (clearFe { st with
        metric := some { m with labels := m.labels.filter (fun l => l.name != n) } }) := by
    simp only [remove_label, hm]
  have hAm : (clearFe { st with
      metric := some { m with labels := m.labels.filter (fun l => l.name != n) } }).metric
      = some { m with labels := m.labels.filter (fun l => l.name != n) } := by
    rw [clearFe_metric]
  have h2 : with_label st n v o =
      .ok (clearFe { (clearFe { st with
          metric := some { m with labels := m.labels.filter (fun l => l.name != n) } }) with
        metric := some { m with
          labels := m.labels.filter (fun l => l.name != n) ++ [⟨n, v, o⟩] } }) := by
    simp only [with_label, hm, ho, if_true, bind, Except.bind, h1, hAm]
  refine ⟨_, h2, ?_, ?_, ?_, ?_, ?_⟩
  · rw [clearFe_metric]
  · rw [clearFe_functions]
    show (clearFe _).functions = _
    rw [clearFe_functions]
  · rw [clearFe_binary_ops]
    show (clearFe _).binary_ops = _
    rw [clearFe_binary_ops]
  · rw [clearFe_arithmetic_ops]
    show (clearFe _).arithmetic_ops = _
    rw [clearFe_arithmetic_ops]
  · intro fe hfe hne
    exact clearFe_fe_of_none _ (clearFe_fe_of_truthy _ fe hfe hne)

/-- Filtering out labels named `n` and then keeping those named `n` gives
nothing. -/
theorem filter_ne_then_eq (ls : List LabelMatcher) (n : String) :
    (ls.filter (fun l => l.name != n)).filter (fun l => l.name == n) = [] := by
  rw [List.filter_eq_nil_iff]
  intro a ha
  have h2 := (List.mem_filter.mp ha).2
  simp only [bne_iff_ne, ne_eq] at h2
  simp [h2]

/-- Filtering out labels named `n` is idempotent. -/
theorem filter_ne_idem (ls : List LabelMatcher) (n : String) :
    (ls.filter (fun l => l.name != n)).filter (fun l => l.name != n)
      = ls.filter (fun l => l.name != n) := by
  rw [List.filter_filter]
  simp [Bool.and_self]

/-- C3: two `with_label` calls for the same name leave exactly one label of
that name carrying the second value; other labels are untouched. -/
theorem with_label_dedup_last_write_wins
    (st : BState) (m : MetricSelector) (n v1 v2 o1 o2 : String) (st1 st2 : BState)
    (hm : st.metric = some m)
    (h1 : with_label st n v1 o1 = .ok st1)
    (h2 : with_label st1 n v2 o2 = .ok st2) :
    ∃ m2, st2.metric = some m2 ∧
      m2.labels.filter (fun l => l.name == n) = [⟨n, v2, o2⟩] ∧
      m2.labels.filter (fun l => l.name != n) = m.labels.filter (fun l => l.name != n) := by
  have ho1 : validLabelOps.contains o1 = true := by
    by_contra hno
    simp only [Bool.not_eq_true] at hno
    have hmem : o1 ∉ validLabelOps := by simpa using hno
    simp [with_label, hm, hmem] at h1
  obtain ⟨st1', he1, hm1, _, _, _, _⟩ := with_label_ok st m n v1 o1 hm ho1
  rw [he1] at h1
  injection h1 with h1
  subst h1
  have ho2 : validLabelOps.contains o2 = true := by
    by_contra hno
    simp only [Bool.not_eq_true] at hno
    have hmem : o2 ∉ validLabelOps := by simpa using hno
    simp [with_label, hm1, hmem] at h2
  obtain ⟨st2', he2, hm2, _, _, _, _⟩ := with_label_ok st1' _ n v2 o2 hm1 ho2
  rw [he2] at h2
  injection h2 with h2
  subst h2
  refine ⟨_, hm2, ?_, ?_⟩
  · simp only [List.filter_append, filter_ne_then_eq]
    simp
  · simp only [List.filter_append, filter_ne_idem]
    simp [bne_self_eq_false]

/-- Witness for C3 at a concrete builder. -/
theorem with_label_dedup_last_write_wins_witness :
    (PromQLBuilder.with_metric PromQLBuilder.init "x").metric
        = some ⟨"x", [], none, none⟩ ∧
    with_label (with_metric init "x") "a" "1" "="
        = .ok ⟨some ⟨"x", [⟨"a", "1", "="⟩], none, none⟩, [], [], [], none⟩ ∧
    with_label (⟨some ⟨"x", [⟨"a", "1", "="⟩], none, none⟩, [], [], [], none⟩ : BState)
        "a" "2" "="
        = .ok ⟨some ⟨"x", [⟨"a", "2", "="⟩], none, none⟩, [], [], [], none⟩ ∧
    ∃ m2, (⟨some ⟨"x", [⟨"a", "2", "="⟩], none, none⟩, [], [], [], none⟩ : BState).metric
            = some m2 ∧
      m2.labels.filter (fun l => l.name == "a") = [⟨"a", "2", "="⟩] ∧
      m2.labels.filter (fun l => l.name != "a")
        = (⟨"x", [], none, none⟩ : MetricSelector).labels.filter (fun l => l.name != "a") :=
  ⟨rfl, rfl, rfl,
    with_label_dedup_last_write_wins (with_metric init "x") ⟨"x", [], none, none⟩
      "a" "1" "2" "=" "=" _ _ rfl rfl rfl⟩

/-- C5: the fluent metric/label scenario renders with the name first, then
the labels comma-joined in insertion order inside braces, each label as
name, operator, double-quoted value. -/
theorem build_scenario_metric_labels :
    (do
      let st0 := PromQLBuilder.with_metric PromQLBuilder.init "http_requests_total"
      let st1 ← PromQLBuilder.with_label st0 "status" "200"
      let st2 ← PromQLBuilder.with_label st1 "method" "GET"
      PromQLBuilder.build st2)
      = .ok "http_requests_total\x7bstatus=\"200\",method=\"GET\"\x7d" := rfl

/-- `findIdx?` finds the first entry satisfying the predicate. -/
theorem findIdx?_first {α : Type} (p : α → Bool) (pre : List α) (old : α)
    (post : List α) (i : Nat) (hpre : ∀ f ∈ pre, p f = false) (hold : p old = true) :
    (pre ++ old :: post).findIdx? p i = some (i + pre.length) := by
  induction pre generalizing i with
  | nil => simp [List.findIdx?_cons, hold]
  | cons a t ih =>
      have ha := hpre a (List.mem_cons_self a t)
      simp only [List.cons_append, List.findIdx?_cons, ha]
      rw [if_neg (by simp)]
      rw [ih (i + 1) (fun f hf => hpre f (List.mem_cons_of_mem a hf))]
      congr 1
      simp [List.length_cons]
      omega

/-- Setting the element at the length of the prefix replaces the head of the
suffix. -/
theorem set_at_prefix_length {α : Type} (pre : List α) (old x : α) (post : List α) :
    (pre ++ old :: post).set pre.length x = pre ++ x :: post := by
  induction pre with
  | nil => rfl
  | cons a t ih => simp [List.set_cons_succ, ih]

/-- C4: `with_function` appends a new function when the name is absent and
replaces in place, preserving position and leaving exactly one function of
that name, when the name is present once. -/
theorem with_function_replace_or_append (st : BState) (name : String)
    (args : List Arg) (byl wol : Option (List String)) :
    ((∀ f ∈ st.functions, (f.name == name) = false) →
      (with_function st name args byl wol).functions
        = st.functions ++ [⟨name, args, byl.getD [], wol.getD []⟩]) ∧
    (∀ pre old post, st.functions = pre ++ old :: post →
      (∀ f ∈ pre, (f.name == name) = false) → (old.name == name) = true →
      (∀ f ∈ post, (f.name == name) = false) →
      (with_function st name args byl wol).functions
          = pre ++ (⟨name, args, byl.getD [], wol.getD []⟩ : Func) :: post ∧
        (with_function st name args byl wol).functions.countP
          (fun f => f.name == name) = 1) := by
  constructor
  · intro habs
    have hidx : st.functions.findIdx? (fun f => f.name == name) = none :=
      List.findIdx?_eq_none_iff.mpr habs
    simp only [with_function, hidx]
    rw [clearFe_functions]
  · intro pre old post hsplit hpre hold hpost
    have hidx : st.functions.findIdx? (fun f => f.name == name) = some pre.length := by
      rw [hsplit]
      have := findIdx?_first (fun f => f.name == name) pre old post 0 hpre hold
      simpa using this
    have hfns : (with_function st name args byl wol).functions
        = pre ++ (⟨name, args, byl.getD [], wol.getD []⟩ : Func) :: post := by
      simp only [with_function, hidx]
      rw [clearFe_functions]
      rw [hsplit, set_at_prefix_length]
    refine ⟨hfns, ?_⟩
    rw [hfns]
    rw [List.countP_append, List.countP_cons]
    have h0 : pre.countP (fun f => f.name == name) = 0 := List.countP_eq_zero.mpr (by
      intro a ha
      simp [hpre a ha])
    have h1 : post.countP (fun f => f.name == name) = 0 := List.countP_eq_zero.mpr (by
      intro a ha
      simp [hpost a ha])
    simp [h0, h1]

/-- Witness for C4: replace an existing `sum`, append a missing `rate`. -/
theorem with_function_replace_or_append_witness :
    ((∀ f ∈ (⟨none, [⟨"sum", [Arg.astr "$expr"], ["a"], []⟩], [], [], none⟩ : BState).functions,
        (f.name == "rate") = false) →
      (with_function ⟨none, [⟨"sum", [Arg.astr "$expr"], ["a"], []⟩], [], [], none⟩
          "rate" [Arg.astr "$expr"] none none).functions
        = [⟨"sum", [Arg.astr "$expr"], ["a"], []⟩]
            ++ [⟨"rate", [Arg.astr "$expr"], [], []⟩]) ∧
    ((with_function ⟨none, [⟨"sum", [Arg.astr "$expr"], ["a"], []⟩], [], [], none⟩
          "sum" [Arg.astr "$expr"] (some ["b"]) none).functions
        = [] ++ (⟨"sum", [Arg.astr "$expr"], ["b"], []⟩ : Func)
            :: [] ∧
      (with_function ⟨none, [⟨"sum", [Arg.astr "$expr"], ["a"], []⟩], [], [], none⟩
          "sum" [Arg.astr "$expr"] (some ["b"]) none).functions.countP
        (fun f => f.name == "sum") = 1) :=
  ⟨(with_function_replace_or_append
      ⟨none, [⟨"sum", [Arg.astr "$expr"], ["a"], []⟩], [], [], none⟩
      "rate" [Arg.astr "$expr"] none none).1,
   (with_function_replace_or_append
      ⟨none, [⟨"sum", [Arg.astr "$expr"], ["a"], []⟩], [], [], none⟩
      "sum" [Arg.astr "$expr"] (some ["b"]) none).2
      [] ⟨"sum", [Arg.astr "$expr"], ["a"], []⟩ [] rfl
      (by intro f hf; cases hf) rfl
      (by intro f hf; cases hf)⟩

/-- C6: the comparison scenario renders `(x{a="1"} > 5)`; in general every
appended comparison operation wraps the expression rendered so far as
`(<current> <op> <value>)`, and so does every appended arithmetic operation
(arithmetic operations render before the comparisons). -/
theorem binary_op_wraps_render :
    ((do
        let st0 := PromQLBuilder.with_metric PromQLBuilder.init "x"
        let st1 ← PromQLBuilder.with_label st0 "a" "1"
        let st2 ← PromQLBuilder.with_binary_op st1 ">" (Arg.anum (PyNum.pint 5))
        PromQLBuilder.build st2)
      = .ok "(x\x7ba=\"1\"\x7d > 5)") ∧
    (∀ (st : BState) (m : MetricSelector) (op : String) (v : Arg) (st' : BState),
      st.metric = some m → st.full_expression = none →
      with_binary_op st op v = .ok st' →
      build st = .ok (structuredRender st m) ∧
      build st' = .ok ("(" ++ structuredRender st m ++ " " ++ op ++ " "
        ++ renderArg v ++ ")")) ∧
    (∀ (st : BState) (m : MetricSelector) (op : String) (v : Arg) (st' : BState),
      st.metric = some m → st.full_expression = none → st.binary_ops = [] →
      with_arithmetic_op st op v = .ok st' →
      build st' = .ok ("(" ++ structuredRender st m ++ " " ++ op ++ " "
        ++ renderArg v ++ ")")) := by
  refine ⟨rfl, ?_, ?_⟩
  · intro st m op v st' hm hfe happ
    have hmem : op ∈ validBinaryOps := by
      by_contra hno
      simp [with_binary_op, hno] at happ
    have hst' : st' = { st with binary_ops := st.binary_ops ++ [⟨op, v⟩] } := by
      have : with_binary_op st op v
          = .ok (clearFe { st with binary_ops := st.binary_ops ++ [⟨op, v⟩] }) := by
        simp [with_binary_op, hmem]
      rw [this] at happ
      injection happ with happ
      rw [← happ, clearFe_of_none]
      exact hfe
    subst hst'
    constructor
    · simp only [build, hm, hfe]
    · simp only [build, hm, hfe]
      unfold structuredRender
      simp only [List.foldl_append, List.foldl_cons, List.foldl_nil]
      cases v <;> simp [renderArg]
  · intro st m op v st' hm hfe hbops happ
    have hmem : op ∈ validArithmeticOps := by
      by_contra hno
      simp [with_arithmetic_op, hno] at happ
    have hst' : st' = { st with
        arithmetic_ops := st.arithmetic_ops ++ [⟨op, v, argIsScalar v⟩] } := by
      have : with_arithmetic_op st op v
          = .ok (clearFe { st with
              arithmetic_ops := st.arithmetic_ops ++ [⟨op, v, argIsScalar v⟩] }) := by
        simp [with_arithmetic_op, hmem]
      rw [this] at happ
      injection happ with happ
      rw [← happ, clearFe_of_none]
      exact hfe
    subst hst'
    simp only [build, hm, hfe]
    unfold structuredRender
    simp only [hbops, List.foldl_append, List.foldl_cons, List.foldl_nil,
      ite_self]

/-- Witness for C6's quantified parts at a concrete builder. -/
theorem binary_op_wraps_render_witness :
    ((⟨some ⟨"m", [], none, none⟩, [], [], [], none⟩ : BState).metric
        = some ⟨"m", [], none, none⟩ ∧
      with_binary_op (⟨some ⟨"m", [], none, none⟩, [], [], [], none⟩ : BState)
          ">" (Arg.anum (PyNum.pint 7))
        = .ok ⟨some ⟨"m", [], none, none⟩, [],
            [⟨">", Arg.anum (PyNum.pint 7)⟩], [], none⟩ ∧
      build (⟨some ⟨"m", [], none, none⟩, [],
            [⟨">", Arg.anum (PyNum.pint 7)⟩], [], none⟩ : BState)
        = .ok ("(" ++ structuredRender ⟨some ⟨"m", [], none, none⟩, [], [], [], none⟩
            ⟨"m", [], none, none⟩ ++ " " ++ ">" ++ " "
            ++ renderArg (Arg.anum (PyNum.pint 7)) ++ ")")) ∧
    (with_arithmetic_op (⟨some ⟨"m", [], none, none⟩, [], [], [], none⟩ : BState)
          "*" (Arg.anum (PyNum.pint 2))
        = .ok ⟨some ⟨"m", [], none, none⟩, [], [],
            [⟨"*", Arg.anum (PyNum.pint 2), false⟩], none⟩ ∧
      build (⟨some ⟨"m", [], none, none⟩, [], [],
            [⟨"*", Arg.anum (PyNum.pint 2), false⟩], none⟩ : BState)
        = .ok ("(" ++ structuredRender ⟨some ⟨"m", [], none, none⟩, [], [], [], none⟩
            ⟨"m", [], none, none⟩ ++ " " ++ "*" ++ " "
            ++ renderArg (Arg.anum (PyNum.pint 2)) ++ ")")) :=
  ⟨⟨rfl, rfl,
    (binary_op_wraps_render.2.1 ⟨some ⟨"m", [], none, none⟩, [], [], [], none⟩
      ⟨"m", [], none, none⟩ ">" (Arg.anum (PyNum.pint 7)) _ rfl rfl rfl).2⟩,
   ⟨rfl,
    binary_op_wraps_render.2.2 ⟨some ⟨"m", [], none, none⟩, [], [], [], none⟩
      ⟨"m", [], none, none⟩ "*" (Arg.anum (PyNum.pint 2)) _ rfl rfl rfl rfl⟩⟩

/-- C7: `with_range` / `with_offset` fail with no metric, fail on an invalid
duration, and on success `get_range_window` reports the new window. -/
theorem with_range_offset_validation (st : BState) (w : String) :
    (st.metric = none →
      with_range st w = .error "No metric selected" ∧
      with_offset st w = .error "No metric selected") ∧
    (∀ m, st.metric = some m → durationMatch w = false →
      with_range st w = .error ("Invalid duration format: " ++ w) ∧
      with_offset st w = .error ("Invalid duration format: " ++ w)) ∧
    (∀ m, st.metric = some m → durationMatch w = true →
      ∃ st', with_range st w = .ok st' ∧ get_range_window st' = some w) ∧
    (durationMatch "5x" = false ∧ durationMatch "5m" = true) := by
  refine ⟨?_, ?_, ?_, ⟨rfl, rfl⟩⟩
  · intro hm
    constructor <;> simp [with_range, with_offset, hm]
  · intro m hm hdur
    constructor <;>
      simp [with_range, with_offset, hm, parse_duration, hdur, bind, Except.bind]
  · intro m hm hdur
    have hok : with_range st w
        = .ok (clearFe { st with metric := some { m with range_window := some w } }) := by
      simp [with_range, hm, parse_duration, hdur, bind, Except.bind]
    refine ⟨_, hok, ?_⟩
    unfold get_range_window
    rw [clearFe_metric]

/-- Witness for C7 at concrete builders and windows. -/
theorem with_range_offset_validation_witness :
    (PromQLBuilder.init.metric = none ∧
      with_range PromQLBuilder.init "5m" = .error "No metric selected") ∧
    ((with_metric PromQLBuilder.init "x").metric = some ⟨"x", [], none, none⟩ ∧
      durationMatch "5x" = false ∧
      with_range (with_metric PromQLBuilder.init "x") "5x"
        = .error ("Invalid duration format: " ++ "5x")) ∧
    (∃ st', with_range (with_metric PromQLBuilder.init "x") "5m" = .ok st' ∧
      get_range_window st' = some "5m") :=
  ⟨⟨rfl, ((with_range_offset_validation PromQLBuilder.init "5m").1 rfl).1⟩,
   ⟨rfl, rfl,
    ((with_range_offset_validation (with_metric PromQLBuilder.init "x") "5x").2.1
      ⟨"x", [], none, none⟩ rfl rfl).1⟩,
   (with_range_offset_validation (with_metric PromQLBuilder.init "x") "5m").2.2.1
      ⟨"x", [], none, none⟩ rfl rfl⟩

/-- C10: on a metric-less builder `remove_label` raises "No metric selected"
while the other removers return normally; on the fresh builder they are
exact no-ops. -/
theorem remove_on_metricless (st : BState) (n f : String) (hm : st.metric = none) :
    remove_label st n = .error "No metric selected" ∧
    (st.full_expression = none →
      remove_range st = st ∧
      remove_offset st = st ∧
      remove_function st f
        = { st with functions := st.functions.filter (fun g => g.name != f) } ∧
      remove_binary_op st = { st with binary_ops := st.binary_ops.dropLast } ∧
      remove_arithmetic_op st
        = { st with arithmetic_ops := st.arithmetic_ops.dropLast } ∧
      (st.functions = [] → remove_function st f = st) ∧
      (st.binary_ops = [] → remove_binary_op st = st) ∧
      (st.arithmetic_ops = [] → remove_arithmetic_op st = st)) := by
  constructor
  · simp [remove_label, hm]
  · intro hfe
    have hrr : remove_range st = st := by
      unfold remove_range
      rw [hm, clearFe_of_none st hfe]
    have hro : remove_offset st = st := by
      unfold remove_offset
      rw [hm, clearFe_of_none st hfe]
    have hrf : remove_function st f
        = { st with functions := st.functions.filter (fun g => g.name != f) } := by
      unfold remove_function
      exact clearFe_of_none _ hfe
    have hrb : remove_binary_op st
        = { st with binary_ops := st.binary_ops.dropLast } := by
      unfold remove_binary_op
      exact clearFe_of_none _ hfe
    have hra : remove_arithmetic_op st
        = { st with arithmetic_ops := st.arithmetic_ops.dropLast } := by
      unfold remove_arithmetic_op
      exact clearFe_of_none _ hfe
    refine ⟨hrr, hro, hrf, hrb, hra, ?_, ?_, ?_⟩
    · intro h0
      have hx : st.functions.filter (fun g => g.name != f) = st.functions := by
        rw [h0]
        rfl
      rw [hrf, hx]
    · intro h0
      have hx : st.binary_ops.dropLast = st.binary_ops := by
        rw [h0]
        rfl
      rw [hrb, hx]
    · intro h0
      have hx : st.arithmetic_ops.dropLast = st.arithmetic_ops := by
        rw [h0]
        rfl
      rw [hra, hx]

/-- Witness for C10 on the freshly constructed builder. -/
theorem remove_on_metricless_witness :
    PromQLBuilder.init.metric = none ∧
    remove_label PromQLBuilder.init "a" = .error "No metric selected" ∧
    (remove_range PromQLBuilder.init = PromQLBuilder.init ∧
     remove_offset PromQLBuilder.init = PromQLBuilder.init) ∧
    (PromQLBuilder.init.functions = [] ∧
      remove_function PromQLBuilder.init "rate" = PromQLBuilder.init) ∧
    (PromQLBuilder.init.binary_ops = [] ∧
      remove_binary_op PromQLBuilder.init = PromQLBuilder.init) ∧
    (PromQLBuilder.init.arithmetic_ops = [] ∧
      remove_arithmetic_op PromQLBuilder.init = PromQLBuilder.init) :=
  ⟨rfl,
   (remove_on_metricless PromQLBuilder.init "a" "rate" rfl).1,
   ⟨((remove_on_metricless PromQLBuilder.init "a" "rate" rfl).2 rfl).1,
    ((remove_on_metricless PromQLBuilder.init "a" "rate" rfl).2 rfl).2.1⟩,
   ⟨rfl, ((remove_on_metricless PromQLBuilder.init "a" "rate" rfl).2 rfl).2.2.2.2.2.1 rfl⟩,
   ⟨rfl, ((remove_on_metricless PromQLBuilder.init "a" "rate" rfl).2 rfl).2.2.2.2.2.2.1 rfl⟩,
   ⟨rfl, ((remove_on_metricless PromQLBuilder.init "a" "rate" rfl).2 rfl).2.2.2.2.2.2.2 rfl⟩⟩

end PromQLBuilder

namespace PromQLBuilder

/-- C2 (amended): every state-changing mutator except `with_metric`
invalidates a truthy `full_expression`; `with_metric` leaves it unchanged. -/
theorem mutators_invalidate_raw_text (st : BState) (fe : String)
    (hfe : st.full_expression = some fe) (hne : fe ≠ "") :
    (∀ (m : Mutation) (st' : BState), (∀ nm, m ≠ Mutation.mWithMetric nm) →
      applyMutationP m st = .ok st' → st'.full_expression = none) ∧
    (∀ nm, (with_metric st nm).full_expression = some fe) := by
  have hc : ∀ (y : BState), y.full_expression = some fe →
      (clearFe y).full_expression = none := fun y hy => clearFe_fe_of_truthy y fe hy hne
  constructor
  · intro m st' hnm happ
    cases m with
    | mWithMetric nm => exact absurd rfl (hnm nm)
    | mWithLabel name value operator =>
        simp only [applyMutationP] at happ
        cases hmet : st.metric with
        | none => simp [with_label, hmet] at happ
        | some mm =>
            by_cases hop : operator ∈ validLabelOps
            · have hval : validLabelOps.contains operator = true := by simpa using hop
              obtain ⟨st'', he, _, _, _, _, hfen⟩ :=
                with_label_ok st mm name value operator hmet hval
              rw [he] at happ
              injection happ with happ
              subst happ
              exact hfen fe hfe hne
            · simp [with_label, hmet, hop] at happ
    | mWithRange w =>
        simp only [applyMutationP] at happ
        cases hmet : st.metric with
        | none => simp [with_range, hmet] at happ
        | some mm =>
            by_cases hd : durationMatch w = true
            · have he : with_range st w
                  = .ok (clearFe { st with
                      metric := some { mm with range_window := some w } }) := by
                simp [with_range, hmet, parse_duration, hd, bind, Except.bind]
              rw [he] at happ
              injection happ with happ
              subst happ
              exact hc _ hfe
            · simp only [Bool.not_eq_true] at hd
              simp [with_range, hmet, parse_duration, hd, bind, Except.bind] at happ
    | mWithOffset o =>
        simp only [applyMutationP] at happ
        cases hmet : st.metric with
        | none => simp [with_offset, hmet] at happ
        | some mm =>
            by_cases hd : durationMatch o = true
            · have he : with_offset st o
                  = .ok (clearFe { st with
                      metric := some { mm with offset := some o } }) := by
                simp [with_offset, hmet, parse_duration, hd, bind, Except.bind]
              rw [he] at happ
              injection happ with happ
              subst happ
              exact hc _ hfe
            · simp only [Bool.not_eq_true] at hd
              simp [with_offset, hmet, parse_duration, hd, bind, Except.bind] at happ
    | mWithFunction name args byl wol =>
        simp only [applyMutationP] at happ
        injection happ with happ
        subst happ
        unfold with_function
        cases hidx : st.functions.findIdx? (fun g => g.name == name) with
        | none => exact hc _ hfe
        | some i => exact hc _ hfe
    | mWithRate w =>
        simp only [applyMutationP] at happ
        cases hmet : st.metric with
        | none => simp [with_rate, hmet] at happ
        | some mm =>
            by_cases hd : durationMatch w = true
            · have he : with_rate st w
                  = .ok (with_function
                      (clearFe { st with
                        metric := some { mm with range_window := some w } })
                      "rate" [Arg.astr "$expr"]) := by
                simp [with_rate, hmet, parse_duration, hd, bind, Except.bind]
              rw [he] at happ
              injection happ with happ
              subst happ
              unfold with_function
              cases hidx : (clearFe { st with
                  metric := some { mm with range_window := some w } }).functions.findIdx?
                    (fun g => g.name == "rate") with
              | none => exact clearFe_fe_of_none _ (hc _ hfe)
              | some i => exact clearFe_fe_of_none _ (hc _ hfe)
            · simp only [Bool.not_eq_true] at hd
              simp [with_rate, hmet, parse_duration, hd, bind, Except.bind] at happ
    | mWithBinaryOp op v =>
        simp only [applyMutationP] at happ
        by_cases hop : op ∈ validBinaryOps
        · have he : with_binary_op st op v
              = .ok (clearFe { st with binary_ops := st.binary_ops ++ [⟨op, v⟩] }) := by
            simp [with_binary_op, hop]
          rw [he] at happ
          injection happ with happ
          subst happ
          exact hc _ hfe
        · simp [with_binary_op, hop] at happ
    | mWithArithmeticOp op v =>
        simp only [applyMutationP] at happ
        by_cases hop : op ∈ validArithmeticOps
        · have he : with_arithmetic_op st op v
              = .ok (clearFe { st with
                  arithmetic_ops := st.arithmetic_ops ++ [⟨op, v, argIsScalar v⟩] }) := by
            simp [with_arithmetic_op, hop]
          rw [he] at happ
          injection happ with happ
          subst happ
          exact hc _ hfe
        · simp [with_arithmetic_op, hop] at happ
    | mRemoveLabel name =>
        simp only [applyMutationP] at happ
        cases hmet : st.metric with
        | none => simp [remove_label, hmet] at happ
        | some mm =>
            have he : remove_label st name
                = .ok (clearFe { st with
                    metric := some { mm with
                      labels := mm.labels.filter (fun l => l.name != name) } }) := by
              simp [remove_label, hmet]
            rw [he] at happ
            injection happ with happ
            subst happ
            exact hc _ hfe
    | mRemoveFunction name =>
        simp only [applyMutationP] at happ
        injection happ with happ
        subst happ
        exact hc _ hfe
    | mRemoveBinaryOp =>
        simp only [applyMutationP] at happ
        injection happ with happ
        subst happ
        exact hc _ hfe
    | mRemoveArithmeticOp =>
        simp only [applyMutationP] at happ
        injection happ with happ
        subst happ
        exact hc _ hfe
    | mRemoveRange =>
        simp only [applyMutationP] at happ
        injection happ with happ
        subst happ
        unfold remove_range
        cases hmet : st.metric with
        | none => exact hc _ hfe
        | some mm => exact hc _ hfe
    | mRemoveOffset =>
        simp only [applyMutationP] at happ
        injection happ with happ
        subst happ
        unfold remove_offset
        cases hmet : st.metric with
        | none => exact hc _ hfe
        | some mm => exact hc _ hfe
  · intro nm
    simpa [with_metric] using hfe

/-- Witness for C2 on a parsed builder. -/
theorem mutators_invalidate_raw_text_witness :
    (⟨some ⟨"x", [], none, none⟩, [], [],
        [⟨"+", Arg.anum (PyNum.pfloat ⟨5, []⟩), true⟩],
        some "x + 5"⟩ : BState).full_expression = some "x + 5" ∧
    ("x + 5" : String) ≠ "" ∧
    (∀ nm, Mutation.mRemoveBinaryOp ≠ Mutation.mWithMetric nm) ∧
    applyMutationP Mutation.mRemoveBinaryOp
        ⟨some ⟨"x", [], none, none⟩, [], [],
          [⟨"+", Arg.anum (PyNum.pfloat ⟨5, []⟩), true⟩], some "x + 5"⟩
      = .ok ⟨some ⟨"x", [], none, none⟩, [], [],
          [⟨"+", Arg.anum (PyNum.pfloat ⟨5, []⟩), true⟩], none⟩ ∧
    (⟨some ⟨"x", [], none, none⟩, [], [],
        [⟨"+", Arg.anum (PyNum.pfloat ⟨5, []⟩), true⟩], none⟩ : BState).full_expression
      = none :=
  ⟨rfl, by decide, fun nm h => Mutation.noConfusion h, rfl,
   (mutators_invalidate_raw_text
      ⟨some ⟨"x", [], none, none⟩, [], [],
        [⟨"+", Arg.anum (PyNum.pfloat ⟨5, []⟩), true⟩], some "x + 5"⟩
      "x + 5" rfl (by decide)).1
      Mutation.mRemoveBinaryOp _ (fun nm h => Mutation.noConfusion h) rfl⟩

/-- C2 (counterexample): after parsing `"x + 5"`, a successful `with_metric`
call leaves `full_expression` set, and `build()` echoes the original query
text instead of rendering the new metric. -/
theorem with_metric_keeps_raw_text_cex :
    PromQLBuilder.ofQuery "x + 5"
      = .ok ⟨some ⟨"x", [], none, none⟩, [], [],
          [⟨"+", Arg.anum (PyNum.pfloat ⟨5, []⟩), true⟩], some "x + 5"⟩ ∧
    (with_metric
        ⟨some ⟨"x", [], none, none⟩, [], [],
          [⟨"+", Arg.anum (PyNum.pfloat ⟨5, []⟩), true⟩], some "x + 5"⟩
        "y").full_expression = some "x + 5" ∧
    build (with_metric
        ⟨some ⟨"x", [], none, none⟩, [], [],
          [⟨"+", Arg.anum (PyNum.pfloat ⟨5, []⟩), true⟩], some "x + 5"⟩
        "y") = .ok "x + 5" :=
  ⟨rfl, rfl, rfl⟩

end PromQLBuilder

/-! ## C9: unterminated string literals -/

/-- The claim-side scan: a double-quoted literal opened here is never
terminated before end of input (a backslash protects the following
character, so an escaped quote does not terminate). -/
def unterminatedLit : List Char → Bool
  | [] => true
  | c :: rest =>
      if c = '"' then false
      else if c = '\\' then
        match rest with
        | [] => true
        | _ :: r => unterminatedLit r
      else unterminatedLit rest

/-- The claim-side description of the token value: all characters after the
opening quote, each backslash-escaped character taken literally (a trailing
lone backslash contributes nothing). -/
def literalChars : List Char → List Char
  | [] => []
  | c :: rest =>
      if c = '\\' then
        match rest with
        | [] => []
        | d :: r => d :: literalChars r
      else c :: literalChars rest

/-- On unterminated input `read_string`'s loop consumes everything and
collects exactly the escape-processed characters. -/
theorem readStringAux_unterminated (tail : List Char)
    (h : unterminatedLit tail = true) :
    Lexer.readStringAux tail = (literalChars tail, [], tail.length) := by
  induction tail using unterminatedLit.induct with
  | case1 => rfl
  | case2 r =>
      rw [unterminatedLit.eq_def] at h
      simp at h
  | case3 hq => rfl
  | case4 d r hq ih =>
      have h' : unterminatedLit r = true := h
      have e1 : Lexer.readStringAux ('\\' :: d :: r)
          = (d :: (Lexer.readStringAux r).1, (Lexer.readStringAux r).2.1,
             (Lexer.readStringAux r).2.2 + 2) := rfl
      rw [e1, ih h']
      rfl
  | case5 c r hq hb ih =>
      have h' : unterminatedLit r = true := by
        rw [unterminatedLit.eq_def] at h
        simpa [hq, hb] using h
      have e1 : Lexer.readStringAux (c :: r)
          = (c :: (Lexer.readStringAux r).1, (Lexer.readStringAux r).2.1,
             (Lexer.readStringAux r).2.2 + 1) := by
        rw [Lexer.readStringAux.eq_def]
        simp [hq, hb]
      have e2 : literalChars (c :: r) = c :: literalChars r := by
        rw [literalChars.eq_def]
        simp [hb]
      rw [e1, ih h', e2]
      simp [List.length_cons]

/-- C9: when `tokenize` reaches a double quote that is never terminated,
`read_string` consumes to end of input without error, yields a `STRING`
token holding the escape-processed remainder, and tokenization completes
normally; in particular a whole input starting with such a quote lexes to
exactly that one token. -/
theorem unterminated_string_lexes_to_eof (tail : List Char) (fuel pos : Nat)
    (h : unterminatedLit tail = true) :
    Lexer.tokenizeAux (fuel + 2) ('"' :: tail) pos
      = .ok [⟨.STRING, String.mk (literalChars tail), pos⟩] ∧
    Lexer.tokenize ('"' :: tail)
      = .ok [⟨.STRING, String.mk (literalChars tail), 0⟩] := by
  have hrs : ∀ (p : Nat), Lexer.read_string ('"' :: tail) p
      = (⟨.STRING, String.mk (literalChars tail), p⟩, [], p + 1 + tail.length) := by
    intro p
    simp [Lexer.read_string, readStringAux_unterminated tail h]
  have hmain : ∀ (f p : Nat), Lexer.tokenizeAux (f + 2) ('"' :: tail) p
      = .ok [⟨.STRING, String.mk (literalChars tail), p⟩] := by
    intro f p
    show Lexer.tokenizeAux (f + 1 + 1) ('"' :: tail) p = _
    rw [Lexer.tokenizeAux]
    rw [if_neg (by decide), if_neg (by decide), if_neg (by decide), if_pos rfl]
    rw [hrs p]
    show (Lexer.tokenizeAux (f + 1) [] _).map _ = _
    rw [Lexer.tokenizeAux]
    rfl
  refine ⟨hmain fuel pos, ?_⟩
  have : ('"' :: tail).length + 1 = tail.length + 2 := by
    simp [List.length_cons]
  rw [Lexer.tokenize, this]
  exact hmain tail.length 0

/-! ## C1: round-trip re-parse -/

/-- `rstrip` is idempotent. -/
theorem rstrip_idem (l : List Char) : rstrip (rstrip l) = rstrip l := by
  unfold rstrip
  rw [List.reverse_reverse, List.dropWhile_idempotent]

/-- `rstrip` yields a prefix of its input. -/
theorem rstrip_prefix (l : List Char) : rstrip l <+: l := by
  have h := List.dropWhile_suffix (l := l.reverse) pyIsSpace
  have h2 := List.reverse_prefix.mpr h
  rwa [List.reverse_reverse] at h2

/-- Left-stripping commutes away after right-stripping an already
left-stripped list. -/
theorem lstrip_rstrip_lstrip (l : List Char) :
    lstrip (rstrip (lstrip l)) = rstrip (lstrip l) := by
  have hl : lstrip (lstrip l) = lstrip l := List.dropWhile_idempotent pyIsSpace l
  cases hr : rstrip (lstrip l) with
  | nil => rfl
  | cons c t =>
      obtain ⟨u, hu⟩ := rstrip_prefix (lstrip l)
      rw [hr] at hu
      have hm : lstrip l = c :: (t ++ u) := by
        rw [← hu]
        simp
      have hpc : pyIsSpace c = false := by
        by_contra hpc
        simp only [Bool.not_eq_false] at hpc
        have h2 : lstrip l = lstrip (t ++ u) := by
          conv_lhs => rw [← hl, hm]
          simp [lstrip, List.dropWhile_cons, hpc]
        have hlen := congrArg List.length h2
        rw [hm] at hlen
        have hle : (List.dropWhile pyIsSpace (t ++ u)).length ≤ (t ++ u).length :=
          (List.dropWhile_suffix pyIsSpace).sublist.length_le
        simp only [lstrip, List.length_cons] at hlen hle
        omega
      simp [lstrip, List.dropWhile_cons, hpc]

/-- Python `strip()` is idempotent. -/
theorem pyStrip_idem (l : List Char) : pyStrip (pyStrip l) = pyStrip l := by
  unfold pyStrip
  rw [lstrip_rstrip_lstrip, rstrip_idem]

namespace PromQLBuilder

/-- `_parse_query` only looks at the stripped input. -/
theorem parse_query_strip (q0 : List Char) :
    parse_query (pyStrip q0) = parse_query q0 := by
  simp only [parse_query, pyStrip_idem]

/-- An all-whitespace query has no words and fails. -/
theorem parse_query_empty (q0 : List Char) (he : pyStrip q0 = []) :
    parse_query q0 = .error "Could not parse metric from query" := by
  simp only [parse_query, he]
  rfl

/-- A successful `_parse_query` records the stripped input as
`full_expression` and always has a metric. -/
theorem parse_query_ok_shape (q0 : List Char) (st : BState)
    (h : parse_query q0 = .ok st) :
    st.full_expression = some (String.mk (pyStrip q0)) ∧ ∃ m, st.metric = some m := by
  simp only [parse_query] at h
  cases hr : (rateStep (pyStrip q0) (extractMetric (pyStrip q0))).1 with
  | some m =>
      rw [hr] at h
      injection h with h
      subst h
      exact ⟨rfl, m, rfl⟩
  | none =>
      rw [hr] at h
      cases hw : refindall1 wordsRe false (pyStrip q0) with
      | nil =>
          rw [hw] at h
          exact Except.noConfusion h
      | cons w ws =>
          rw [hw] at h
          injection h with h
          subst h
          exact ⟨rfl, _, rfl⟩

/-- When the fallback test fires, `build` echoes the retained text. -/
theorem build_fallback (st : BState) (m : MetricSelector) (fe : String)
    (hm : st.metric = some m) (hfe : st.full_expression = some fe)
    (hne : fe ≠ "") (htrig : fallbackTriggers fe = true) :
    build st = .ok fe := by
  simp [build, hm, hfe, hne, htrig]

/-- C1 (amended): for every grammar-accepted query whose stripped text makes
`build`'s raw-text fallback fire, `build` returns the stripped input
verbatim and re-parsing it reproduces exactly the same builder state. -/
theorem roundtrip_reparse_idempotent_on_fallback (q : String) (st : BState)
    (hacc : acceptedByGrammar q = true)
    (hparse : ofQuery q = .ok st)
    (htrig : fallbackTriggers (String.mk (pyStrip q.toList)) = true) :
    build st = .ok (String.mk (pyStrip q.toList)) ∧
    ofQuery (String.mk (pyStrip q.toList)) = .ok st := by
  have hqf : (q == "") = false := by
    cases hb : (q == "") with
    | false => rfl
    | true =>
        have : q = "" := eq_of_beq hb
        subst this
        exact absurd hacc (by decide)
  have hparse' : parse_query q.toList = .ok st := by
    simpa [ofQuery, hqf] using hparse
  have hsne : pyStrip q.toList ≠ [] := by
    intro he
    rw [parse_query_empty q.toList he] at hparse'
    exact Except.noConfusion hparse'
  obtain ⟨hfe, m, hm⟩ := parse_query_ok_shape q.toList st hparse'
  have hneS : String.mk (pyStrip q.toList) ≠ "" := by
    intro hS
    exact hsne (by simpa using congrArg String.data hS)
  refine ⟨build_fallback st m _ hm hfe hneS htrig, ?_⟩
  have h1 : (String.mk (pyStrip q.toList) == "") = false := by
    cases hb : (String.mk (pyStrip q.toList) == "") with
    | false => rfl
    | true => exact absurd (eq_of_beq hb) hneS
  have h2 : (String.mk (pyStrip q.toList)).toList = pyStrip q.toList := rfl
  simp only [ofQuery, h1, Bool.false_eq_true, if_false, h2]
  rw [parse_query_strip]
  exact hparse'

/-- Witness for C1's amended statement at a fallback-triggering query. -/
theorem roundtrip_reparse_idempotent_on_fallback_witness :
    acceptedByGrammar "x + 5" = true ∧
    ofQuery "x + 5"
      = .ok ⟨some ⟨"x", [], none, none⟩, [], [],
          [⟨"+", Arg.anum (PyNum.pfloat ⟨5, []⟩), true⟩], some "x + 5"⟩ ∧
    fallbackTriggers (String.mk (pyStrip "x + 5".toList)) = true ∧
    (build ⟨some ⟨"x", [], none, none⟩, [], [],
          [⟨"+", Arg.anum (PyNum.pfloat ⟨5, []⟩), true⟩], some "x + 5"⟩
        = .ok (String.mk (pyStrip "x + 5".toList)) ∧
      ofQuery (String.mk (pyStrip "x + 5".toList))
        = .ok ⟨some ⟨"x", [], none, none⟩, [], [],
            [⟨"+", Arg.anum (PyNum.pfloat ⟨5, []⟩), true⟩], some "x + 5"⟩) :=
  ⟨rfl, rfl, rfl,
   roundtrip_reparse_idempotent_on_fallback "x + 5"
     ⟨some ⟨"x", [], none, none⟩, [], [],
       [⟨"+", Arg.anum (PyNum.pfloat ⟨5, []⟩), true⟩], some "x + 5"⟩
     rfl rfl rfl⟩

/-- C1 (counterexample): `min(max(x))` is accepted by the grammar, parses to
a state whose metric is `max`, renders as `max(min(max))`, and re-parsing
the rendered text yields a different state (metric `min`): re-parse after
render is not idempotent. -/
theorem roundtrip_reparse_not_idempotent :
    acceptedByGrammar "min(max(x))" = true ∧
    ofQuery "min(max(x))"
      = .ok ⟨some ⟨"max", [], none, none⟩,
          [⟨"min", [Arg.astr "$expr"], [], []⟩, ⟨"max", [Arg.astr "$expr"], [], []⟩],
          [], [], some "min(max(x))"⟩ ∧
    build ⟨some ⟨"max", [], none, none⟩,
          [⟨"min", [Arg.astr "$expr"], [], []⟩, ⟨"max", [Arg.astr "$expr"], [], []⟩],
          [], [], some "min(max(x))"⟩
      = .ok "max(min(max))" ∧
    ofQuery "max(min(max))"
      = .ok ⟨some ⟨"min", [], none, none⟩,
          [⟨"min", [Arg.astr "$expr"], [], []⟩, ⟨"max", [Arg.astr "$expr"], [], []⟩],
          [], [], some "max(min(max))"⟩ ∧
    (⟨some ⟨"min", [], none, none⟩,
          [⟨"min", [Arg.astr "$expr"], [], []⟩, ⟨"max", [Arg.astr "$expr"], [], []⟩],
          [], [], some "max(min(max))"⟩ : BState)
      ≠ ⟨some ⟨"max", [], none, none⟩,
          [⟨"min", [Arg.astr "$expr"], [], []⟩, ⟨"max", [Arg.astr "$expr"], [], []⟩],
          [], [], some "min(max(x))"⟩ := by
  refine ⟨rfl, rfl, rfl, rfl, ?_⟩
  intro hEq
  exact absurd (congrArg BState.metric hEq) (by decide)

end PromQLBuilder

/-! ## C8: heap lemmas and clone independence -/

theorem find?_set_ne (cells : List (Nat × HCell)) (a a' : Nat) (c : HCell)
    (hne : a ≠ a') :
    (cells.map fun e => if e.1 == a' then (a', c) else e).find? (fun e => e.1 == a)
      = cells.find? (fun e => e.1 == a) := by
  induction cells with
  | nil => rfl
  | cons e t ih =>
      simp only [List.map_cons]
      by_cases h1 : e.1 = a'
      · rw [if_pos (by simp [h1])]
        rw [List.find?_cons_of_neg _ (by simp [Ne.symm hne]),
          List.find?_cons_of_neg _ (by simp [h1, Ne.symm hne]), ih]
      · rw [if_neg (by simp [h1])]
        by_cases h2 : e.1 = a
        · rw [List.find?_cons_of_pos _ (by simp [h2]),
            List.find?_cons_of_pos _ (by simp [h2])]
        · rw [List.find?_cons_of_neg _ (by simp [h2]),
            List.find?_cons_of_neg _ (by simp [h2]), ih]

theorem find?_set_self (cells : List (Nat × HCell)) (a : Nat) (c : HCell)
    (hpres : (cells.find? (fun e => e.1 == a)).isSome = true) :
    (cells.map fun e => if e.1 == a then (a, c) else e).find? (fun e => e.1 == a)
      = some (a, c) := by
  induction cells with
  | nil => simp [List.find?] at hpres
  | cons e t ih =>
      simp only [List.map_cons]
      by_cases h1 : e.1 = a
      · rw [if_pos (by simp [h1])]
        rw [List.find?_cons_of_pos _ (by simp)]
      · rw [if_neg (by simp [h1])]
        rw [List.find?_cons_of_neg _ (by simp [h1])]
        rw [List.find?_cons_of_neg _ (by simp [h1])] at hpres
        exact ih hpres

/-- `set` does not disturb other addresses. -/
theorem Heap.get_set_ne (h : Heap) (a a' : Nat) (c : HCell) (hne : a ≠ a') :
    (h.set a' c).get a = h.get a :=
  congrArg (Option.map _) (find?_set_ne h.cells a a' c hne)

/-- `set` overwrites a present address. -/
theorem Heap.get_set_self (h : Heap) (a : Nat) (c : HCell)
    (hpres : (h.get a).isSome = true) :
    (h.set a c).get a = some c := by
  unfold Heap.get at hpres ⊢
  unfold Heap.set
  rw [find?_set_self h.cells a c (by
    cases hfind : h.cells.find? (fun e => e.1 == a) with
    | none => rw [hfind] at hpres; simp at hpres
    | some e => simp [hfind])]
  rfl

/-- `alloc` does not disturb other addresses. -/
theorem Heap.get_alloc_ne (h : Heap) (c : HCell) (a : Nat) (hne : a ≠ h.next) :
    ((h.alloc c).2).get a = h.get a := by
  unfold Heap.alloc Heap.get
  rw [List.find?_cons_of_neg _ (by simp [Ne.symm hne])]

/-- `alloc` installs the new cell at the returned address. -/
theorem Heap.get_alloc_self (h : Heap) (c : HCell) :
    ((h.alloc c).2).get (h.alloc c).1 = some c := by
  unfold Heap.alloc Heap.get
  rw [List.find?_cons_of_pos _ (by simp)]
  rfl

/-- `set` keeps the allocation bound. -/
theorem Heap.next_set (h : Heap) (a : Nat) (c : HCell) : (h.set a c).next = h.next := rfl

/-- `alloc` bumps the allocation bound. -/
theorem Heap.next_alloc (h : Heap) (c : HCell) :
    ((h.alloc c).2).next = h.next + 1 := rfl

/-- A present address is below the bound of a well-formed heap. -/
theorem Heap.lt_next_of_get_isSome (h : Heap) (a : Nat)
    (hwfh : h.wfHeap = true) (hpres : (h.get a).isSome = true) : a < h.next := by
  unfold Heap.get at hpres
  cases hfind : h.cells.find? (fun e => e.1 == a) with
  | none => rw [hfind] at hpres; simp at hpres
  | some e =>
      have hmem := List.mem_of_find?_eq_some hfind
      have hkey : e.1 = a := by
        have := List.find?_some hfind
        simpa using this
      have := (List.all_eq_true.mp hwfh) e hmem
      simp only [decide_eq_true_eq] at this
      omega

/-- `set` preserves heap well-formedness. -/
theorem Heap.wfHeap_set (h : Heap) (a : Nat) (c : HCell) (hwfh : h.wfHeap = true)
    (ha : a < h.next) : (h.set a c).wfHeap = true := by
  unfold Heap.wfHeap at hwfh ⊢
  unfold Heap.set
  rw [List.all_eq_true] at hwfh ⊢
  intro e he
  obtain ⟨e0, he0, hmap⟩ := List.mem_map.mp he
  by_cases h1 : e0.1 = a
  · rw [if_pos (by simp [h1])] at hmap
    subst hmap
    simpa using ha
  · rw [if_neg (by simp [h1])] at hmap
    subst hmap
    exact hwfh e0 he0

/-- `alloc` preserves heap well-formedness. -/
theorem Heap.wfHeap_alloc (h : Heap) (c : HCell) (hwfh : h.wfHeap = true) :
    ((h.alloc c).2).wfHeap = true := by
  unfold Heap.wfHeap at hwfh ⊢
  unfold Heap.alloc
  rw [List.all_eq_true] at hwfh ⊢
  intro e he
  rcases List.mem_cons.mp he with he0 | he0
  · subst he0
    simp
  · have := hwfh e he0
    simp only [decide_eq_true_eq] at this ⊢
    omega

namespace HBuilder

/-- The three list addresses are always owned. -/
theorem mem_ownAddrs_functions (b : HBuilder) (h : Heap) :
    b.functions ∈ b.ownAddrs h := by
  unfold ownAddrs
  simp

theorem mem_ownAddrs_binary (b : HBuilder) (h : Heap) :
    b.binary_ops ∈ b.ownAddrs h := by
  unfold ownAddrs
  simp

theorem mem_ownAddrs_arithmetic (b : HBuilder) (h : Heap) :
    b.arithmetic_ops ∈ b.ownAddrs h := by
  unfold ownAddrs
  simp

/-- The metric object's address is owned. -/
theorem mem_ownAddrs_metric (b : HBuilder) (h : Heap) (ma : Nat)
    (hm : b.metric = some ma) : ma ∈ b.ownAddrs h := by
  simp [ownAddrs, hm]

/-- The labels-list address read through the metric cell is owned. -/
theorem mem_ownAddrs_labels (b : HBuilder) (h : Heap) (ma la : Nat)
    (hm : b.metric = some ma) (mn : String) (range ofs : Option String)
    (hgm : h.get ma = some (.metricCell mn la range ofs)) :
    la ∈ b.ownAddrs h := by
  simp [ownAddrs, hm, hgm]

/-- If two heaps agree on a builder's owned addresses, the builder owns the
same addresses in both and reads back the same state. -/
theorem readState_congr (c : HBuilder) (h h' : Heap)
    (hag : ∀ a ∈ c.ownAddrs h, h'.get a = h.get a) :
    c.ownAddrs h' = c.ownAddrs h ∧ c.readState h' = c.readState h := by
  have hf := hag c.functions (mem_ownAddrs_functions c h)
  have hb := hag c.binary_ops (mem_ownAddrs_binary c h)
  have ha := hag c.arithmetic_ops (mem_ownAddrs_arithmetic c h)
  cases hm : c.metric with
  | none =>
      constructor
      · unfold ownAddrs
        rw [hm]
      · unfold readState
        rw [hm, hf, hb, ha]
  | some ma =>
      have hma := hag ma (mem_ownAddrs_metric c h ma hm)
      have hown : c.ownAddrs h' = c.ownAddrs h := by
        simp only [ownAddrs, hm, hma]
      refine ⟨hown, ?_⟩
      simp only [readState, hm, hf, hb, ha, hma]
      cases hgm : h.get ma with
      | none => rfl
      | some cell =>
          cases cell with
          | metricCell mn la range ofs =>
              have hla := hag la (mem_ownAddrs_labels c h ma la hm mn range ofs hgm)
              simp only [hla]
          | labelList ls => rfl
          | funcList fs => rfl
          | binList bs => rfl
          | ariList ops => rfl

end HBuilder

/-- `set` at an absent address changes nothing there. -/
theorem find?_set_absent (cells : List (Nat × HCell)) (a : Nat) (c : HCell)
    (habs : cells.find? (fun e => e.1 == a) = none) :
    (cells.map fun e => if e.1 == a then (a, c) else e).find? (fun e => e.1 == a)
      = none := by
  rw [List.find?_eq_none] at habs ⊢
  intro e he
  obtain ⟨e0, he0, hmap⟩ := List.mem_map.mp he
  by_cases h1 : (e0.1 == a) = true
  · exact absurd h1 (habs e0 he0)
  · rw [if_neg h1] at hmap
    subst hmap
    exact habs e0 he0

/-- Either a `set` leaves an address alone, or the address is the written
one and now holds the new cell. -/
theorem Heap.get_set_cases (h : Heap) (a₀ : Nat) (c : HCell) (a : Nat) :
    (h.set a₀ c).get a = h.get a ∨ (a = a₀ ∧ (h.set a₀ c).get a = some c) := by
  by_cases hne : a = a₀
  · subst hne
    by_cases hpres : (h.get a).isSome = true
    · exact Or.inr ⟨rfl, Heap.get_set_self h a c hpres⟩
    · left
      have habs : h.cells.find? (fun e => e.1 == a) = none := by
        cases hfind : h.cells.find? (fun e => e.1 == a) with
        | none => rfl
        | some e =>
            rw [show h.get a = (h.cells.find? (fun e => e.1 == a)).map (·.2) from rfl,
              hfind] at hpres
            simp at hpres
      show ((h.cells.map fun e => if e.1 == a then (a, c) else e).find?
          (fun e => e.1 == a)).map (·.2)
        = (h.cells.find? (fun e => e.1 == a)).map (·.2)
      rw [find?_set_absent h.cells a c habs, habs]
  · exact Or.inl (Heap.get_set_ne h a a₀ c hne)

namespace HBuilder

theorem clearFeH_metric (b : HBuilder) : (clearFeH b).metric = b.metric := by
  unfold clearFeH
  cases b.full_expression with
  | none => rfl
  | some s => by_cases h : s = "" <;> simp [h]

theorem clearFeH_functions (b : HBuilder) : (clearFeH b).functions = b.functions := by
  unfold clearFeH
  cases b.full_expression with
  | none => rfl
  | some s => by_cases h : s = "" <;> simp [h]

theorem clearFeH_binary (b : HBuilder) : (clearFeH b).binary_ops = b.binary_ops := by
  unfold clearFeH
  cases b.full_expression with
  | none => rfl
  | some s => by_cases h : s = "" <;> simp [h]

theorem clearFeH_arith (b : HBuilder) :
    (clearFeH b).arithmetic_ops = b.arithmetic_ops := by
  unfold clearFeH
  cases b.full_expression with
  | none => rfl
  | some s => by_cases h : s = "" <;> simp [h]

theorem ownAddrs_clearFeH (b : HBuilder) (h : Heap) :
    (clearFeH b).ownAddrs h = b.ownAddrs h := by
  simp only [ownAddrs, clearFeH_metric, clearFeH_functions, clearFeH_binary,
    clearFeH_arith]

/-- Owned addresses after a `set` are owned before, or fresh, provided any
written metric cell points at an owned-or-fresh labels list. -/
theorem ownAddrs_subset_after_set (b : HBuilder) (h : Heap) (a₀ : Nat) (c : HCell)
    (N : Nat)
    (hc : ∀ mn la range ofs, c = .metricCell mn la range ofs →
      la ∈ b.ownAddrs h ∨ N ≤ la) :
    ∀ a ∈ b.ownAddrs (h.set a₀ c), a ∈ b.ownAddrs h ∨ N ≤ a := by
  intro a ha
  cases hm : b.metric with
  | none =>
      left
      unfold ownAddrs at ha ⊢
      rw [hm] at ha ⊢
      simpa using ha
  | some ma =>
      unfold ownAddrs at ha
      rw [hm, List.mem_append] at ha
      rcases ha with hfirst | harm
      · left
        unfold ownAddrs
        rw [hm, List.mem_append]
        exact Or.inl hfirst
      · rw [List.mem_cons] at harm
        rcases harm with hma | ha
        · subst hma
          exact Or.inl (mem_ownAddrs_metric b h a hm)
        · rcases Heap.get_set_cases h a₀ c ma with hsame | ⟨_, hnew⟩
          · rw [hsame] at ha
            cases hgm : h.get ma with
            | none => rw [hgm] at ha; simp at ha
            | some cell =>
                rw [hgm] at ha
                cases cell with
                | metricCell mn la range ofs =>
                    simp only [List.mem_singleton] at ha
                    subst ha
                    exact Or.inl (mem_ownAddrs_labels b h ma a hm mn range ofs hgm)
                | labelList ls => simp at ha
                | funcList fs => simp at ha
                | binList bs => simp at ha
                | ariList ops => simp at ha
          · rw [hnew] at ha
            cases c with
            | metricCell mn la range ofs =>
                simp only [List.mem_singleton] at ha
                subst ha
                exact hc mn a range ofs rfl
            | labelList ls => simp at ha
            | funcList fs => simp at ha
            | binList bs => simp at ha
            | ariList ops => simp at ha

/-- Owned addresses after an `alloc` are owned before, or fresh, under the
same proviso for an allocated metric cell. -/
theorem ownAddrs_subset_after_alloc (b : HBuilder) (h : Heap) (c : HCell)
    (N : Nat)
    (hc : ∀ mn la range ofs, c = .metricCell mn la range ofs →
      la ∈ b.ownAddrs h ∨ N ≤ la) :
    ∀ a ∈ b.ownAddrs ((h.alloc c).2), a ∈ b.ownAddrs h ∨ N ≤ a := by
  intro a ha
  cases hm : b.metric with
  | none =>
      left
      unfold ownAddrs at ha ⊢
      rw [hm] at ha ⊢
      simpa using ha
  | some ma =>
      unfold ownAddrs at ha
      rw [hm, List.mem_append] at ha
      rcases ha with hfirst | harm
      · left
        unfold ownAddrs
        rw [hm, List.mem_append]
        exact Or.inl hfirst
      · rw [List.mem_cons] at harm
        rcases harm with hma | ha
        · subst hma
          exact Or.inl (mem_ownAddrs_metric b h a hm)
        · by_cases hfresh : ma = h.next
          · subst hfresh
            rw [show ((h.alloc c).2).get h.next = some c from Heap.get_alloc_self h c] at ha
            cases c with
            | metricCell mn la range ofs =>
                simp only [List.mem_singleton] at ha
                subst ha
                exact hc mn a range ofs rfl
            | labelList ls => simp at ha
            | funcList fs => simp at ha
            | binList bs => simp at ha
            | ariList ops => simp at ha
          · rw [Heap.get_alloc_ne h c ma hfresh] at ha
            cases hgm : h.get ma with
            | none => rw [hgm] at ha; simp at ha
            | some cell =>
                rw [hgm] at ha
                cases cell with
                | metricCell mn la range ofs =>
                    simp only [List.mem_singleton] at ha
                    subst ha
                    exact Or.inl (mem_ownAddrs_labels b h ma a hm mn range ofs hgm)
                | labelList ls => simp at ha
                | funcList fs => simp at ha
                | binList bs => simp at ha
                | ariList ops => simp at ha

end HBuilder

namespace HBuilder

/-- `ownAddrs` only looks at the four reference fields. -/
theorem ownAddrs_fields_eq (b' b : HBuilder) (h : Heap)
    (hf : b'.functions = b.functions) (hbo : b'.binary_ops = b.binary_ops)
    (hao : b'.arithmetic_ops = b.arithmetic_ops) (hmo : b'.metric = b.metric) :
    b'.ownAddrs h = b.ownAddrs h := by
  unfold ownAddrs
  rw [hf, hbo, hao, hmo]

/-- The frame conditions for a mutator whose only heap effect is one `set`
at an owned, present address. -/
theorem frameok_single_set (b : HBuilder) (h : Heap) (b' : HBuilder) (a₀ : Nat)
    (c : HCell) (hwfh : h.wfHeap = true)
    (hmem : a₀ ∈ b.ownAddrs h) (hlt : a₀ < h.next)
    (hf : b'.functions = b.functions) (hbo : b'.binary_ops = b.binary_ops)
    (hao : b'.arithmetic_ops = b.arithmetic_ops) (hmo : b'.metric = b.metric)
    (hc : ∀ mn la range ofs, c = .metricCell mn la range ofs →
      la ∈ b.ownAddrs h ∨ h.next ≤ la) :
    FrameOk b h b' (h.set a₀ c) := by
  refine ⟨?_, ?_, ?_, ?_⟩
  · rw [Heap.next_set]
  · intro a hnotin hltn
    exact Heap.get_set_ne h a a₀ c (fun he => hnotin (he ▸ hmem))
  · intro a ha
    rw [ownAddrs_fields_eq b' b _ hf hbo hao hmo] at ha
    exact ownAddrs_subset_after_set b h a₀ c h.next hc a ha
  · exact Heap.wfHeap_set h a₀ c hwfh hlt

/-- The frame conditions for a mutator that leaves the heap alone. -/
theorem frameok_id (b : HBuilder) (h : Heap) (b' : HBuilder)
    (hwfh : h.wfHeap = true)
    (hf : b'.functions = b.functions) (hbo : b'.binary_ops = b.binary_ops)
    (hao : b'.arithmetic_ops = b.arithmetic_ops) (hmo : b'.metric = b.metric) :
    FrameOk b h b' h := by
  refine ⟨le_refl _, fun a _ _ => rfl, ?_, hwfh⟩
  intro a ha
  rw [ownAddrs_fields_eq b' b _ hf hbo hao hmo] at ha
  exact Or.inl ha

/-- Frame conditions for `with_range`. -/
theorem frame_with_rangeH (b : HBuilder) (h : Heap) (w : String)
    (b' : HBuilder) (h' : Heap) (hwfh : h.wfHeap = true)
    (happ : b.with_rangeH h w = .ok (b', h')) : FrameOk b h b' h' := by
  unfold with_rangeH at happ
  cases hm : b.metric with
  | none =>
      simp only [hm] at happ
      exact Except.noConfusion happ
  | some ma =>
      simp only [hm] at happ
      cases hpd : PromQLBuilder.parse_duration w with
      | error e =>
          simp only [hpd, bind, Except.bind] at happ
          exact Except.noConfusion happ
      | ok wv =>
          simp only [hpd, bind, Except.bind] at happ
          cases hgm : h.get ma with
          | none =>
              simp only [hgm] at happ
              exact Except.noConfusion happ
          | some cell =>
              cases cell with
              | metricCell mn la range ofs =>
                  simp only [hgm] at happ
                  injection happ with happ
                  have hb' := congrArg Prod.fst happ
                  have hh' := congrArg Prod.snd happ
                  simp only at hb' hh'
                  subst hb'
                  subst hh'
                  refine frameok_single_set b h _ ma _ hwfh
                    (mem_ownAddrs_metric b h ma hm)
                    (Heap.lt_next_of_get_isSome h ma hwfh (by rw [hgm]; rfl))
                    (clearFeH_functions b) (clearFeH_binary b) (clearFeH_arith b)
                    (clearFeH_metric b) ?_
                  intro mn' la' r' o' hceq
                  injection hceq with h1 h2 h3 h4
                  subst h2
                  exact Or.inl (mem_ownAddrs_labels b h ma la hm mn range ofs hgm)
              | labelList ls =>
                  simp only [hgm] at happ
                  exact Except.noConfusion happ
              | funcList fs =>
                  simp only [hgm] at happ
                  exact Except.noConfusion happ
              | binList bs =>
                  simp only [hgm] at happ
                  exact Except.noConfusion happ
              | ariList ops =>
                  simp only [hgm] at happ
                  exact Except.noConfusion happ

/-- Frame conditions for `with_offset`. -/
theorem frame_with_offsetH (b : HBuilder) (h : Heap) (o : String)
    (b' : HBuilder) (h' : Heap) (hwfh : h.wfHeap = true)
    (happ : b.with_offsetH h o = .ok (b', h')) : FrameOk b h b' h' := by
  unfold with_offsetH at happ
  cases hm : b.metric with
  | none =>
      simp only [hm] at happ
      exact Except.noConfusion happ
  | some ma =>
      simp only [hm] at happ
      cases hpd : PromQLBuilder.parse_duration o with
      | error e =>
          simp only [hpd, bind, Except.bind] at happ
          exact Except.noConfusion happ
      | ok ov =>
          simp only [hpd, bind, Except.bind] at happ
          cases hgm : h.get ma with
          | none =>
              simp only [hgm] at happ
              exact Except.noConfusion happ
          | some cell =>
              cases cell with
              | metricCell mn la range ofs =>
                  simp only [hgm] at happ
                  injection happ with happ
                  have hb' := congrArg Prod.fst happ
                  have hh' := congrArg Prod.snd happ
                  simp only at hb' hh'
                  subst hb'
                  subst hh'
                  refine frameok_single_set b h _ ma _ hwfh
                    (mem_ownAddrs_metric b h ma hm)
                    (Heap.lt_next_of_get_isSome h ma hwfh (by rw [hgm]; rfl))
                    (clearFeH_functions b) (clearFeH_binary b) (clearFeH_arith b)
                    (clearFeH_metric b) ?_
                  intro mn' la' r' o' hceq
                  injection hceq with h1 h2 h3 h4
                  subst h2
                  exact Or.inl (mem_ownAddrs_labels b h ma la hm mn range ofs hgm)
              | labelList ls =>
                  simp only [hgm] at happ
                  exact Except.noConfusion happ
              | funcList fs =>
                  simp only [hgm] at happ
                  exact Except.noConfusion happ
              | binList bs =>
                  simp only [hgm] at happ
                  exact Except.noConfusion happ
              | ariList ops =>
                  simp only [hgm] at happ
                  exact Except.noConfusion happ

/-- Frame conditions for `with_function`. -/
theorem frame_with_functionH (b : HBuilder) (h : Heap) (name : String)
    (args : List Arg) (byl wol : Option (List String))
    (b' : HBuilder) (h' : Heap) (hwfh : h.wfHeap = true)
    (happ : b.with_functionH h name args byl wol = .ok (b', h')) :
    FrameOk b h b' h' := by
  unfold with_functionH at happ
  cases hgf : h.get b.functions with
  | none =>
      simp only [hgf] at happ
      exact Except.noConfusion happ
  | some cell =>
      cases cell with
      | funcList fs =>
          simp only [hgf] at happ
          injection happ with happ
          have hb' := congrArg Prod.fst happ
          have hh' := congrArg Prod.snd happ
          simp only at hb' hh'
          subst hb'
          subst hh'
          refine frameok_single_set b h _ b.functions _ hwfh
            (mem_ownAddrs_functions b h)
            (Heap.lt_next_of_get_isSome h b.functions hwfh (by rw [hgf]; rfl))
            (clearFeH_functions b) (clearFeH_binary b) (clearFeH_arith b)
            (clearFeH_metric b) ?_
          intro mn' la' r' o' hceq
          exact HCell.noConfusion hceq
      | metricCell mn la range ofs =>
          simp only [hgf] at happ
          exact Except.noConfusion happ
      | labelList ls =>
          simp only [hgf] at happ
          exact Except.noConfusion happ
      | binList bs =>
          simp only [hgf] at happ
          exact Except.noConfusion happ
      | ariList ops =>
          simp only [hgf] at happ
          exact Except.noConfusion happ

/-- Frame conditions for `with_binary_op`. -/
theorem frame_with_binary_opH (b : HBuilder) (h : Heap) (op : String) (v : Arg)
    (b' : HBuilder) (h' : Heap) (hwfh : h.wfHeap = true)
    (happ : b.with_binary_opH h op v = .ok (b', h')) : FrameOk b h b' h' := by
  unfold with_binary_opH at happ
  by_cases hop : PromQLBuilder.validBinaryOps.contains op = true
  · rw [if_pos hop] at happ
    cases hgb : h.get b.binary_ops with
    | none =>
        simp only [hgb] at happ
        exact Except.noConfusion happ
    | some cell =>
        cases cell with
        | binList bs =>
            simp only [hgb] at happ
            injection happ with happ
            have hb' := congrArg Prod.fst happ
            have hh' := congrArg Prod.snd happ
            simp only at hb' hh'
            subst hb'
            subst hh'
            refine frameok_single_set b h _ b.binary_ops _ hwfh
              (mem_ownAddrs_binary b h)
              (Heap.lt_next_of_get_isSome h b.binary_ops hwfh (by rw [hgb]; rfl))
              (clearFeH_functions b) (clearFeH_binary b) (clearFeH_arith b)
              (clearFeH_metric b) ?_
            intro mn' la' r' o' hceq
            exact HCell.noConfusion hceq
        | metricCell mn la range ofs =>
            simp only [hgb] at happ
            exact Except.noConfusion happ
        | labelList ls =>
            simp only [hgb] at happ
            exact Except.noConfusion happ
        | funcList fs =>
            simp only [hgb] at happ
            exact Except.noConfusion happ
        | ariList ops =>
            simp only [hgb] at happ
            exact Except.noConfusion happ
  · rw [if_neg hop] at happ
    exact Except.noConfusion happ

/-- Frame conditions for `with_arithmetic_op`. -/
theorem frame_with_arithmetic_opH (b : HBuilder) (h : Heap) (op : String) (v : Arg)
    (b' : HBuilder) (h' : Heap) (hwfh : h.wfHeap = true)
    (happ : b.with_arithmetic_opH h op v = .ok (b', h')) : FrameOk b h b' h' := by
  unfold with_arithmetic_opH at happ
  by_cases hop : PromQLBuilder.validArithmeticOps.contains op = true
  · rw [if_pos hop] at happ
    cases hga : h.get b.arithmetic_ops with
    | none =>
        simp only [hga] at happ
        exact Except.noConfusion happ
    | some cell =>
        cases cell with
        | ariList ops =>
            simp only [hga] at happ
            injection happ with happ
            have hb' := congrArg Prod.fst happ
            have hh' := congrArg Prod.snd happ
            simp only at hb' hh'
            subst hb'
            subst hh'
            refine frameok_single_set b h _ b.arithmetic_ops _ hwfh
              (mem_ownAddrs_arithmetic b h)
              (Heap.lt_next_of_get_isSome h b.arithmetic_ops hwfh (by rw [hga]; rfl))
              (clearFeH_functions b) (clearFeH_binary b) (clearFeH_arith b)
              (clearFeH_metric b) ?_
            intro mn' la' r' o' hceq
            exact HCell.noConfusion hceq
        | metricCell mn la range ofs =>
            simp only [hga] at happ
            exact Except.noConfusion happ
        | labelList ls =>
            simp only [hga] at happ
            exact Except.noConfusion happ
        | funcList fs =>
            simp only [hga] at happ
            exact Except.noConfusion happ
        | binList bs =>
            simp only [hga] at happ
            exact Except.noConfusion happ
  · rw [if_neg hop] at happ
    exact Except.noConfusion happ

/-- Frame conditions for `remove_binary_op`. -/
theorem frame_remove_binary_opH (b : HBuilder) (h : Heap)
    (b' : HBuilder) (h' : Heap) (hwfh : h.wfHeap = true)
    (happ : b.remove_binary_opH h = .ok (b', h')) : FrameOk b h b' h' := by
  unfold remove_binary_opH at happ
  cases hgb : h.get b.binary_ops with
  | none =>
      simp only [hgb] at happ
      exact Except.noConfusion happ
  | some cell =>
      cases cell with
      | binList bs =>
          simp only [hgb] at happ
          injection happ with happ
          have hb' := congrArg Prod.fst happ
          have hh' := congrArg Prod.snd happ
          simp only at hb' hh'
          subst hb'
          subst hh'
          refine frameok_single_set b h _ b.binary_ops _ hwfh
            (mem_ownAddrs_binary b h)
            (Heap.lt_next_of_get_isSome h b.binary_ops hwfh (by rw [hgb]; rfl))
            (clearFeH_functions b) (clearFeH_binary b) (clearFeH_arith b)
            (clearFeH_metric b) ?_
          intro mn' la' r' o' hceq
          exact HCell.noConfusion hceq
      | metricCell mn la range ofs =>
          simp only [hgb] at happ
          exact Except.noConfusion happ
      | labelList ls =>
          simp only [hgb] at happ
          exact Except.noConfusion happ
      | funcList fs =>
          simp only [hgb] at happ
          exact Except.noConfusion happ
      | ariList ops =>
          simp only [hgb] at happ
          exact Except.noConfusion happ

/-- Frame conditions for `remove_arithmetic_op`. -/
theorem frame_remove_arithmetic_opH (b : HBuilder) (h : Heap)
    (b' : HBuilder) (h' : Heap) (hwfh : h.wfHeap = true)
    (happ : b.remove_arithmetic_opH h = .ok (b', h')) : FrameOk b h b' h' := by
  unfold remove_arithmetic_opH at happ
  cases hga : h.get b.arithmetic_ops with
  | none =>
      simp only [hga] at happ
      exact Except.noConfusion happ
  | some cell =>
      cases cell with
      | ariList ops =>
          simp only [hga] at happ
          injection happ with happ
          have hb' := congrArg Prod.fst happ
          have hh' := congrArg Prod.snd happ
          simp only at hb' hh'
          subst hb'
          subst hh'
          refine frameok_single_set b h _ b.arithmetic_ops _ hwfh
            (mem_ownAddrs_arithmetic b h)
            (Heap.lt_next_of_get_isSome h b.arithmetic_ops hwfh (by rw [hga]; rfl))
            (clearFeH_functions b) (clearFeH_binary b) (clearFeH_arith b)
            (clearFeH_metric b) ?_
          intro mn' la' r' o' hceq
          exact HCell.noConfusion hceq
      | metricCell mn la range ofs =>
          simp only [hga] at happ
          exact Except.noConfusion happ
      | labelList ls =>
          simp only [hga] at happ
          exact Except.noConfusion happ
      | funcList fs =>
          simp only [hga] at happ
          exact Except.noConfusion happ
      | binList bs =>
          simp only [hga] at happ
          exact Except.noConfusion happ

/-- Frame conditions for `remove_range`. -/
theorem frame_remove_rangeH (b : HBuilder) (h : Heap)
    (b' : HBuilder) (h' : Heap) (hwfh : h.wfHeap = true)
    (happ : b.remove_rangeH h = .ok (b', h')) : FrameOk b h b' h' := by
  unfold remove_rangeH at happ
  cases hm : b.metric with
  | none =>
      simp only [hm] at happ
      injection happ with happ
      have hb' := congrArg Prod.fst happ
      have hh' := congrArg Prod.snd happ
      simp only at hb' hh'
      subst hb'
      subst hh'
      exact frameok_id b h _ hwfh (clearFeH_functions b) (clearFeH_binary b)
        (clearFeH_arith b) (clearFeH_metric b)
  | some ma =>
      simp only [hm] at happ
      cases hgm : h.get ma with
      | none =>
          simp only [hgm] at happ
          exact Except.noConfusion happ
      | some cell =>
          cases cell with
          | metricCell mn la range ofs =>
              simp only [hgm] at happ
              injection happ with happ
              have hb' := congrArg Prod.fst happ
              have hh' := congrArg Prod.snd happ
              simp only at hb' hh'
              subst hb'
              subst hh'
              refine frameok_single_set b h _ ma _ hwfh
                (mem_ownAddrs_metric b h ma hm)
                (Heap.lt_next_of_get_isSome h ma hwfh (by rw [hgm]; rfl))
                (clearFeH_functions b) (clearFeH_binary b) (clearFeH_arith b)
                (clearFeH_metric b) ?_
              intro mn' la' r' o' hceq
              injection hceq with h1 h2 h3 h4
              subst h2
              exact Or.inl (mem_ownAddrs_labels b h ma la hm mn range ofs hgm)
          | labelList ls =>
              simp only [hgm] at happ
              exact Except.noConfusion happ
          | funcList fs =>
              simp only [hgm] at happ
              exact Except.noConfusion happ
          | binList bs =>
              simp only [hgm] at happ
              exact Except.noConfusion happ
          | ariList ops =>
              simp only [hgm] at happ
              exact Except.noConfusion happ

/-- Frame conditions compose across two consecutive mutator calls. -/
theorem frameok_trans (b : HBuilder) (h : Heap) (b1 : HBuilder) (h1 : Heap)
    (b2 : HBuilder) (h2 : Heap)
    (h01 : FrameOk b h b1 h1) (h12 : FrameOk b1 h1 b2 h2) : FrameOk b h b2 h2 := by
  obtain ⟨hn1, hu1, ho1, _⟩ := h01
  obtain ⟨hn2, hu2, ho2, hw2⟩ := h12
  refine ⟨le_trans hn1 hn2, ?_, ?_, hw2⟩
  · intro a hnot hlt
    have hnot1 : a ∉ b1.ownAddrs h1 := by
      intro hin
      rcases ho1 a hin with hc | hc
      · exact hnot hc
      · omega
    rw [hu2 a hnot1 (lt_of_lt_of_le hlt hn1), hu1 a hnot hlt]
  · intro a ha
    rcases ho2 a ha with hc | hc
    · exact ho1 a hc
    · exact Or.inr (le_trans hn1 hc)

/-- Complete case analysis of `ownAddrs` membership. -/
theorem mem_ownAddrs_cases (b : HBuilder) (h : Heap) (a : Nat)
    (ha : a ∈ b.ownAddrs h) :
    a = b.functions ∨ a = b.binary_ops ∨ a = b.arithmetic_ops ∨
      ∃ ma, b.metric = some ma ∧
        (a = ma ∨ ∃ mn la range ofs,
          h.get ma = some (.metricCell mn la range ofs) ∧ a = la) := by
  unfold ownAddrs at ha
  rw [List.mem_append] at ha
  rcases ha with h1 | h2
  · simp only [List.mem_cons, List.not_mem_nil, or_false] at h1
    tauto
  · cases hm : b.metric with
    | none =>
        rw [hm] at h2
        simp at h2
    | some ma =>
        rw [hm] at h2
        rw [List.mem_cons] at h2
        rcases h2 with h2 | h2
        · exact Or.inr (Or.inr (Or.inr ⟨ma, rfl, Or.inl h2⟩))
        · cases hgm : h.get ma with
          | none => rw [hgm] at h2; simp at h2
          | some cell =>
              rw [hgm] at h2
              cases cell with
              | metricCell mn la range ofs =>
                  simp only [List.mem_singleton] at h2
                  exact Or.inr (Or.inr (Or.inr
                    ⟨ma, rfl, Or.inr ⟨mn, la, range, ofs, hgm, h2⟩⟩))
              | labelList ls => simp at h2
              | funcList fs => simp at h2
              | binList bs => simp at h2
              | ariList ops => simp at h2

/-- Frame conditions for `with_metric` (which always succeeds): it allocates
a fresh labels list and a fresh metric object and rebinds `self.metric`. -/
theorem frame_with_metricH (b : HBuilder) (h : Heap) (name : String)
    (hwfh : h.wfHeap = true) :
    FrameOk b h (b.with_metricH h name).1 (b.with_metricH h name).2 := by
  refine ⟨?_, ?_, ?_, ?_⟩
  · show h.next ≤ ((h.alloc (.labelList [])).2.alloc
      (.metricCell name (h.alloc (.labelList [])).1 none none)).2.next
    rw [Heap.next_alloc, Heap.next_alloc]
    omega
  · intro a _ hlt
    show (((h.alloc (.labelList [])).2.alloc
        (.metricCell name (h.alloc (.labelList [])).1 none none)).2).get a = h.get a
    rw [Heap.get_alloc_ne, Heap.get_alloc_ne]
    · omega
    · rw [Heap.next_alloc]; omega
  · intro a ha
    rcases mem_ownAddrs_cases _ _ a ha with h1 | h1 | h1 | ⟨ma, hma, hcase⟩
    · subst h1
      exact Or.inl (mem_ownAddrs_functions b h)
    · subst h1
      exact Or.inl (mem_ownAddrs_binary b h)
    · subst h1
      exact Or.inl (mem_ownAddrs_arithmetic b h)
    · have hma' : some (h.next + 1) = some ma := hma
      injection hma' with hma'
      subst hma'
      rcases hcase with h1 | ⟨mn, la, range, ofs, hget, h1⟩
      · subst h1
        exact Or.inr (by omega)
      · subst h1
        have hcell : ((b.with_metricH h name).2).get (h.next + 1)
            = some (.metricCell name h.next none none) :=
          Heap.get_alloc_self (h.alloc (.labelList [])).2 _
        rw [hcell] at hget
        injection hget with hget
        injection hget with e1 e2 e3 e4
        subst e2
        exact Or.inr (Nat.le_refl _)
  · exact Heap.wfHeap_alloc _ _ (Heap.wfHeap_alloc h _ hwfh)

/-- Frame conditions for `remove_label`: one fresh list allocation plus one
write to the owned metric object. -/
theorem frame_remove_labelH (b : HBuilder) (h : Heap) (name : String)
    (b' : HBuilder) (h' : Heap) (hwfh : h.wfHeap = true)
    (happ : b.remove_labelH h name = .ok (b', h')) : FrameOk b h b' h' := by
  unfold remove_labelH at happ
  cases hm : b.metric with
  | none =>
      simp only [hm] at happ
      exact Except.noConfusion happ
  | some ma =>
      simp only [hm] at happ
      cases hgm : h.get ma with
      | none =>
          simp only [hgm] at happ
          exact Except.noConfusion happ
      | some cell =>
          cases cell with
          | metricCell mn la range ofs =>
              simp only [hgm] at happ
              cases hgl : h.get la with
              | none =>
                  simp only [hgl] at happ
                  exact Except.noConfusion happ
              | some lcell =>
                  cases lcell with
                  | labelList ls =>
                      simp only [hgl] at happ
                      injection happ with happ
                      have hb' := congrArg Prod.fst happ
                      have hh' := congrArg Prod.snd happ
                      simp only at hb' hh'
                      subst hb'
                      subst hh'
                      have hmalt : ma < h.next :=
                        Heap.lt_next_of_get_isSome h ma hwfh (by rw [hgm]; rfl)
                      refine ⟨?_, ?_, ?_, ?_⟩
                      · rw [Heap.next_set, Heap.next_alloc]
                        omega
                      · intro a hnot hlt
                        have hne : a ≠ ma :=
                          fun he => hnot (he ▸ mem_ownAddrs_metric b h ma hm)
                        rw [Heap.get_set_ne _ a ma _ hne, Heap.get_alloc_ne]
                        omega
                      · intro a ha
                        rw [ownAddrs_clearFeH] at ha
                        have hstep := ownAddrs_subset_after_set b
                          ((h.alloc (.labelList (ls.filter (fun l => l.name != name)))).2)
                          ma _ h.next
                          (fun mn' la' r' o' hceq => by
                            injection hceq with e1 e2 e3 e4
                            subst e2
                            exact Or.inr (Nat.le_refl _)) a ha
                        rcases hstep with hstep | hstep
                        · exact ownAddrs_subset_after_alloc b h _ h.next
                            (fun mn' la' r' o' hceq => HCell.noConfusion hceq) a hstep
                        · exact Or.inr hstep
                      · refine Heap.wfHeap_set _ ma _
                          (Heap.wfHeap_alloc h _ hwfh) ?_
                        rw [Heap.next_alloc]
                        omega
                  | metricCell mn' la' r' o' =>
                      simp only [hgl] at happ
                      exact Except.noConfusion happ
                  | funcList fs =>
                      simp only [hgl] at happ
                      exact Except.noConfusion happ
                  | binList bs =>
                      simp only [hgl] at happ
                      exact Except.noConfusion happ
                  | ariList ops =>
                      simp only [hgl] at happ
                      exact Except.noConfusion happ
          | labelList ls =>
              simp only [hgm] at happ
              exact Except.noConfusion happ
          | funcList fs =>
              simp only [hgm] at happ
              exact Except.noConfusion happ
          | binList bs =>
              simp only [hgm] at happ
              exact Except.noConfusion happ
          | ariList ops =>
              simp only [hgm] at happ
              exact Except.noConfusion happ

/-- Frame conditions for `with_label`: a `remove_label` pass followed by one
write to the (owned) labels list. -/
theorem frame_with_labelH (b : HBuilder) (h : Heap) (name value operator : String)
    (b' : HBuilder) (h' : Heap) (hwfh : h.wfHeap = true)
    (happ : b.with_labelH h name value operator = .ok (b', h')) :
    FrameOk b h b' h' := by
  unfold with_labelH at happ
  cases hm : b.metric with
  | none =>
      simp only [hm] at happ
      exact Except.noConfusion happ
  | some ma0 =>
      simp only [hm] at happ
      by_cases hop : PromQLBuilder.validLabelOps.contains operator = true
      · rw [if_pos hop] at happ
        cases hrl : b.remove_labelH h name with
        | error e =>
            simp only [hrl, bind, Except.bind] at happ
            exact Except.noConfusion happ
        | ok r =>
            obtain ⟨b1, h1⟩ := r
            simp only [hrl, bind, Except.bind] at happ
            have hfr1 : FrameOk b h b1 h1 :=
              frame_remove_labelH b h name b1 h1 hwfh hrl
            obtain ⟨hn1, hu1, ho1, hw1⟩ := hfr1
            cases hm1 : b1.metric with
            | none =>
                simp only [hm1] at happ
                exact Except.noConfusion happ
            | some ma =>
                simp only [hm1] at happ
                cases hgm1 : h1.get ma with
                | none =>
                    simp only [hgm1] at happ
                    exact Except.noConfusion happ
                | some cell =>
                    cases cell with
                    | metricCell mn la range ofs =>
                        simp only [hgm1] at happ
                        cases hgl1 : h1.get la with
                        | none =>
                            simp only [hgl1] at happ
                            exact Except.noConfusion happ
                        | some lcell =>
                            cases lcell with
                            | labelList ls =>
                                simp only [hgl1] at happ
                                injection happ with happ
                                have hb' := congrArg Prod.fst happ
                                have hh' := congrArg Prod.snd happ
                                simp only at hb' hh'
                                subst hb'
                                subst hh'
                                refine frameok_trans b h b1 h1 _ _ ⟨hn1, hu1, ho1, hw1⟩
                                  (frameok_single_set b1 h1 _ la _ hw1
                                    (mem_ownAddrs_labels b1 h1 ma la hm1 mn range ofs hgm1)
                                    (Heap.lt_next_of_get_isSome h1 la hw1 (by rw [hgl1]; rfl))
                                    (clearFeH_functions b1) (clearFeH_binary b1)
                                    (clearFeH_arith b1) (clearFeH_metric b1)
                                    (fun mn' la' r' o' hceq => HCell.noConfusion hceq))
                            | metricCell mn' la' r' o' =>
                                simp only [hgl1] at happ
                                exact Except.noConfusion happ
                            | funcList fs =>
                                simp only [hgl1] at happ
                                exact Except.noConfusion happ
                            | binList bs =>
                                simp only [hgl1] at happ
                                exact Except.noConfusion happ
                            | ariList ops =>
                                simp only [hgl1] at happ
                                exact Except.noConfusion happ
                    | labelList ls =>
                        simp only [hgm1] at happ
                        exact Except.noConfusion happ
                    | funcList fs =>
                        simp only [hgm1] at happ
                        exact Except.noConfusion happ
                    | binList bs =>
                        simp only [hgm1] at happ
                        exact Except.noConfusion happ
                    | ariList ops =>
                        simp only [hgm1] at happ
                        exact Except.noConfusion happ
      · rw [if_neg hop] at happ
        exact Except.noConfusion happ

/-- Frame conditions for `with_rate`: one write to the owned metric object
followed by a `with_function` pass. -/
theorem frame_with_rateH (b : HBuilder) (h : Heap) (w : String)
    (b' : HBuilder) (h' : Heap) (hwfh : h.wfHeap = true)
    (happ : b.with_rateH h w = .ok (b', h')) : FrameOk b h b' h' := by
  unfold with_rateH at happ
  cases hm : b.metric with
  | none =>
      simp only [hm] at happ
      exact Except.noConfusion happ
  | some ma =>
      simp only [hm] at happ
      cases hpd : PromQLBuilder.parse_duration w with
      | error e =>
          simp only [hpd, bind, Except.bind] at happ
          exact Except.noConfusion happ
      | ok wv =>
          simp only [hpd, bind, Except.bind] at happ
          cases hgm : h.get ma with
          | none =>
              simp only [hgm] at happ
              exact Except.noConfusion happ
          | some cell =>
              cases cell with
              | metricCell mn la range ofs =>
                  simp only [hgm] at happ
                  have hmalt : ma < h.next :=
                    Heap.lt_next_of_get_isSome h ma hwfh (by rw [hgm]; rfl)
                  have hfr1 : FrameOk b h (clearFeH b)
                      (h.set ma (.metricCell mn la (some wv) ofs)) :=
                    frameok_single_set b h (clearFeH b) ma _ hwfh
                      (mem_ownAddrs_metric b h ma hm) hmalt
                      (clearFeH_functions b) (clearFeH_binary b)
                      (clearFeH_arith b) (clearFeH_metric b)
                      (fun mn' la' r' o' hceq => by
                        injection hceq with e1 e2 e3 e4
                        subst e2
                        exact Or.inl (mem_ownAddrs_labels b h ma la hm mn range ofs hgm))
                  have hfr2 : FrameOk (clearFeH b)
                      (h.set ma (.metricCell mn la (some wv) ofs)) b' h' :=
                    frame_with_functionH (clearFeH b) _ _ _ _ _ b' h'
                      (Heap.wfHeap_set h ma _ hwfh hmalt) happ
                  exact frameok_trans b h _ _ b' h' hfr1 hfr2
              | labelList ls =>
                  simp only [hgm] at happ
                  exact Except.noConfusion happ
              | funcList fs =>
                  simp only [hgm] at happ
                  exact Except.noConfusion happ
              | binList bs =>
                  simp only [hgm] at happ
                  exact Except.noConfusion happ
              | ariList ops =>
                  simp only [hgm] at happ
                  exact Except.noConfusion happ

/-- Frame conditions for `remove_function`: one fresh list allocation and a
rebinding of `self.functions`. -/
theorem frame_remove_functionH (b : HBuilder) (h : Heap) (name : String)
    (b' : HBuilder) (h' : Heap) (hwfh : h.wfHeap = true)
    (happ : b.remove_functionH h name = .ok (b', h')) : FrameOk b h b' h' := by
  unfold remove_functionH at happ
  cases hgf : h.get b.functions with
  | none =>
      simp only [hgf] at happ
      exact Except.noConfusion happ
  | some cell =>
      cases cell with
      | funcList fs =>
          simp only [hgf] at happ
          injection happ with happ
          have hb' := congrArg Prod.fst happ
          have hh' := congrArg Prod.snd happ
          simp only at hb' hh'
          subst hb'
          subst hh'
          refine ⟨?_, ?_, ?_, Heap.wfHeap_alloc h _ hwfh⟩
          · rw [Heap.next_alloc]
            omega
          · intro a _ hlt
            rw [Heap.get_alloc_ne]
            omega
          · intro a ha
            rw [ownAddrs_clearFeH] at ha
            rcases mem_ownAddrs_cases _ _ a ha with h1 | h1 | h1 | ⟨ma, hma, hcase⟩
            · subst h1
              exact Or.inr (Nat.le_refl _)
            · subst h1
              exact Or.inl (mem_ownAddrs_binary b h)
            · subst h1
              exact Or.inl (mem_ownAddrs_arithmetic b h)
            · have hma' : b.metric = some ma := hma
              rcases hcase with h1 | ⟨mn, la, range, ofs, hget, h1⟩
              · subst h1
                exact Or.inl (mem_ownAddrs_metric b h a hma')
              · subst h1
                by_cases hfresh : ma = h.next
                · subst hfresh
                  rw [show ((h.alloc (.funcList
                        (fs.filter (fun f => f.name != name)))).2).get h.next
                      = some (.funcList (fs.filter (fun f => f.name != name)))
                      from Heap.get_alloc_self h _] at hget
                  injection hget with hget
                  exact HCell.noConfusion hget
                · rw [Heap.get_alloc_ne h _ ma hfresh] at hget
                  exact Or.inl (mem_ownAddrs_labels b h ma a hma' mn range ofs hget)
      | metricCell mn la range ofs =>
          simp only [hgf] at happ
          exact Except.noConfusion happ
      | labelList ls =>
          simp only [hgf] at happ
          exact Except.noConfusion happ
      | binList bs =>
          simp only [hgf] at happ
          exact Except.noConfusion happ
      | ariList ops =>
          simp only [hgf] at happ
          exact Except.noConfusion happ

/-- Frame conditions for `remove_offset`. -/
theorem frame_remove_offsetH (b : HBuilder) (h : Heap)
    (b' : HBuilder) (h' : Heap) (hwfh : h.wfHeap = true)
    (happ : b.remove_offsetH h = .ok (b', h')) : FrameOk b h b' h' := by
  unfold remove_offsetH at happ
  cases hm : b.metric with
  | none =>
      simp only [hm] at happ
      injection happ with happ
      have hb' := congrArg Prod.fst happ
      have hh' := congrArg Prod.snd happ
      simp only at hb' hh'
      subst hb'
      subst hh'
      exact frameok_id b h _ hwfh (clearFeH_functions b) (clearFeH_binary b)
        (clearFeH_arith b) (clearFeH_metric b)
  | some ma =>
      simp only [hm] at happ
      cases hgm : h.get ma with
      | none =>
          simp only [hgm] at happ
          exact Except.noConfusion happ
      | some cell =>
          cases cell with
          | metricCell mn la range ofs =>
              simp only [hgm] at happ
              injection happ with happ
              have hb' := congrArg Prod.fst happ
              have hh' := congrArg Prod.snd happ
              simp only at hb' hh'
              subst hb'
              subst hh'
              refine frameok_single_set b h _ ma _ hwfh
                (mem_ownAddrs_metric b h ma hm)
                (Heap.lt_next_of_get_isSome h ma hwfh (by rw [hgm]; rfl))
                (clearFeH_functions b) (clearFeH_binary b) (clearFeH_arith b)
                (clearFeH_metric b) ?_
              intro mn' la' r' o' hceq
              injection hceq with h1 h2 h3 h4
              subst h2
              exact Or.inl (mem_ownAddrs_labels b h ma la hm mn range ofs hgm)
          | labelList ls =>
              simp only [hgm] at happ
              exact Except.noConfusion happ
          | funcList fs =>
              simp only [hgm] at happ
              exact Except.noConfusion happ
          | binList bs =>
              simp only [hgm] at happ
              exact Except.noConfusion happ
          | ariList ops =>
              simp only [hgm] at happ
              exact Except.noConfusion happ

/-- Every successful mutator call obeys the frame conditions. -/
theorem applyMutation_frame (m : Mutation) (b : HBuilder) (h : Heap)
    (b' : HBuilder) (h' : Heap) (hwfh : h.wfHeap = true)
    (happ : applyMutation m b h = .ok (b', h')) : FrameOk b h b' h' := by
  cases m with
  | mWithMetric name =>
      simp only [applyMutation] at happ
      injection happ with happ
      have hb' := congrArg Prod.fst happ
      have hh' := congrArg Prod.snd happ
      simp only at hb' hh'
      subst hb'
      subst hh'
      exact frame_with_metricH b h name hwfh
  | mWithLabel name value operator =>
      simp only [applyMutation] at happ
      exact frame_with_labelH b h name value operator b' h' hwfh happ
  | mWithRange w =>
      simp only [applyMutation] at happ
      exact frame_with_rangeH b h w b' h' hwfh happ
  | mWithOffset o =>
      simp only [applyMutation] at happ
      exact frame_with_offsetH b h o b' h' hwfh happ
  | mWithFunction name args byl wol =>
      simp only [applyMutation] at happ
      exact frame_with_functionH b h name args byl wol b' h' hwfh happ
  | mWithRate w =>
      simp only [applyMutation] at happ
      exact frame_with_rateH b h w b' h' hwfh happ
  | mWithBinaryOp op v =>
      simp only [applyMutation] at happ
      exact frame_with_binary_opH b h op v b' h' hwfh happ
  | mWithArithmeticOp op v =>
      simp only [applyMutation] at happ
      exact frame_with_arithmetic_opH b h op v b' h' hwfh happ
  | mRemoveLabel name =>
      simp only [applyMutation] at happ
      exact frame_remove_labelH b h name b' h' hwfh happ
  | mRemoveFunction name =>
      simp only [applyMutation] at happ
      exact frame_remove_functionH b h name b' h' hwfh happ
  | mRemoveBinaryOp =>
      simp only [applyMutation] at happ
      exact frame_remove_binary_opH b h b' h' hwfh happ
  | mRemoveArithmeticOp =>
      simp only [applyMutation] at happ
      exact frame_remove_arithmetic_opH b h b' h' hwfh happ
  | mRemoveRange =>
      simp only [applyMutation] at happ
      exact frame_remove_rangeH b h b' h' hwfh happ
  | mRemoveOffset =>
      simp only [applyMutation] at happ
      exact frame_remove_offsetH b h b' h' hwfh happ

/-- A whole sequence of mutator calls (with raising calls leaving state
untouched) obeys the frame conditions. -/
theorem applyMutations_frame (ms : List Mutation) :
    ∀ (b : HBuilder) (h : Heap), h.wfHeap = true →
      FrameOk b h (applyMutations ms b h).1 (applyMutations ms b h).2 := by
  induction ms with
  | nil =>
      intro b h hwfh
      exact frameok_id b h b hwfh rfl rfl rfl rfl
  | cons m ms ih =>
      intro b h hwfh
      cases happ : applyMutation m b h with
      | error e =>
          have hunf : applyMutations (m :: ms) b h = applyMutations ms b h := by
            unfold applyMutations
            rw [List.foldl_cons]
            simp only [happ]
          rw [hunf]
          exact ih b h hwfh
      | ok s =>
          obtain ⟨b1, h1⟩ := s
          have hfr : FrameOk b h b1 h1 := applyMutation_frame m b h b1 h1 hwfh happ
          obtain ⟨hn1, hu1, ho1, hw1⟩ := hfr
          have hunf : applyMutations (m :: ms) b h = applyMutations ms b1 h1 := by
            unfold applyMutations
            rw [List.foldl_cons]
            simp only [happ]
          rw [hunf]
          exact frameok_trans b h b1 h1 _ _ ⟨hn1, hu1, ho1, hw1⟩ (ih b1 h1 hw1)

/-- Unpacking the builder well-formedness boolean. -/
theorem wf_parts (b : HBuilder) (h : Heap) (hwf : b.wf h = true) :
    (∃ fs, h.get b.functions = some (.funcList fs)) ∧
    (∃ bs, h.get b.binary_ops = some (.binList bs)) ∧
    (∃ ops, h.get b.arithmetic_ops = some (.ariList ops)) ∧
    b.functions < h.next ∧ b.binary_ops < h.next ∧ b.arithmetic_ops < h.next ∧
    (∀ ma, b.metric = some ma →
      ma < h.next ∧ ∃ mn la range ofs,
        h.get ma = some (.metricCell mn la range ofs) ∧ la < h.next ∧
        ∃ ls, h.get la = some (.labelList ls)) := by
  unfold wf at hwf
  simp only [Bool.and_eq_true, decide_eq_true_eq] at hwf
  obtain ⟨⟨⟨⟨⟨⟨hgf0, hgb0⟩, hga0⟩, hfl⟩, hbl⟩, hal⟩, hmw⟩ := hwf
  refine ⟨?_, ?_, ?_, hfl, hbl, hal, ?_⟩
  · cases hgf : h.get b.functions with
    | none => rw [hgf] at hgf0; exact absurd hgf0 (by simp)
    | some cell =>
        cases cell with
        | funcList fs => exact ⟨fs, rfl⟩
        | metricCell mn la r o => rw [hgf] at hgf0; exact absurd hgf0 (by simp)
        | labelList ls => rw [hgf] at hgf0; exact absurd hgf0 (by simp)
        | binList bs => rw [hgf] at hgf0; exact absurd hgf0 (by simp)
        | ariList ops => rw [hgf] at hgf0; exact absurd hgf0 (by simp)
  · cases hgb : h.get b.binary_ops with
    | none => rw [hgb] at hgb0; exact absurd hgb0 (by simp)
    | some cell =>
        cases cell with
        | binList bs => exact ⟨bs, rfl⟩
        | metricCell mn la r o => rw [hgb] at hgb0; exact absurd hgb0 (by simp)
        | labelList ls => rw [hgb] at hgb0; exact absurd hgb0 (by simp)
        | funcList fs => rw [hgb] at hgb0; exact absurd hgb0 (by simp)
        | ariList ops => rw [hgb] at hgb0; exact absurd hgb0 (by simp)
  · cases hga : h.get b.arithmetic_ops with
    | none => rw [hga] at hga0; exact absurd hga0 (by simp)
    | some cell =>
        cases cell with
        | ariList ops => exact ⟨ops, rfl⟩
        | metricCell mn la r o => rw [hga] at hga0; exact absurd hga0 (by simp)
        | labelList ls => rw [hga] at hga0; exact absurd hga0 (by simp)
        | funcList fs => rw [hga] at hga0; exact absurd hga0 (by simp)
        | binList bs => rw [hga] at hga0; exact absurd hga0 (by simp)
  · intro ma hma
    rw [hma] at hmw
    simp only [Bool.and_eq_true, decide_eq_true_eq] at hmw
    obtain ⟨hmlt, hrest⟩ := hmw
    refine ⟨hmlt, ?_⟩
    cases hgm : h.get ma with
    | none => rw [hgm] at hrest; exact absurd hrest (by simp)
    | some cell =>
        cases cell with
        | metricCell mn la range ofs =>
            rw [hgm] at hrest
            simp only [Bool.and_eq_true, decide_eq_true_eq] at hrest
            obtain ⟨hla, hll⟩ := hrest
            refine ⟨mn, la, range, ofs, rfl, hla, ?_⟩
            cases hgl : h.get la with
            | none => rw [hgl] at hll; exact absurd hll (by simp)
            | some lcell =>
                cases lcell with
                | labelList ls => exact ⟨ls, rfl⟩
                | metricCell mn' la' r' o' =>
                    rw [hgl] at hll; exact absurd hll (by simp)
                | funcList fs => rw [hgl] at hll; exact absurd hll (by simp)
                | binList bs => rw [hgl] at hll; exact absurd hll (by simp)
                | ariList ops => rw [hgl] at hll; exact absurd hll (by simp)
        | labelList ls => rw [hgm] at hrest; exact absurd hrest (by simp)
        | funcList fs => rw [hgm] at hrest; exact absurd hrest (by simp)
        | binList bs => rw [hgm] at hrest; exact absurd hrest (by simp)
        | ariList ops => rw [hgm] at hrest; exact absurd hrest (by simp)

/-- All owned addresses of a well-formed builder are below the allocation
bound. -/
theorem ownAddrs_lt_next_of_wf (b : HBuilder) (h : Heap) (hwf : b.wf h = true) :
    ∀ a ∈ b.ownAddrs h, a < h.next := by
  obtain ⟨_, _, _, hf, hbo, hao, hmet⟩ := wf_parts b h hwf
  intro a hmem
  rcases mem_ownAddrs_cases b h a hmem with h1 | h1 | h1 | ⟨ma, hma, hcase⟩
  · subst h1; exact hf
  · subst h1; exact hbo
  · subst h1; exact hao
  · obtain ⟨hmlt, mn, la, range, ofs, hgm, hlalt, _⟩ := hmet ma hma
    rcases hcase with h1 | ⟨mn', la', r', o', hgm', h1⟩
    · subst h1; exact hmlt
    · subst h1
      rw [hgm] at hgm'
      injection hgm' with e
      injection e with e1 e2 e3 e4
      subst e2
      exact hlalt

/-- What `clone` guarantees: it only allocates (all cells below the old
bound are untouched), the clone's owned addresses are exactly the fresh
ones, heap well-formedness is kept, the original reads back unchanged, and
the clone reads back the original's state with `full_expression` dropped. -/
theorem cloneH_spec (b : HBuilder) (h : Heap) (c : HBuilder) (h1 : Heap)
    (hwf : b.wf h = true) (hwfh : h.wfHeap = true)
    (hcl : b.cloneH h = .ok (c, h1)) :
    h.next ≤ h1.next ∧
    (∀ a, a < h.next → h1.get a = h.get a) ∧
    (∀ a ∈ c.ownAddrs h1, h.next ≤ a ∧ a < h1.next) ∧
    (∀ a ∈ b.ownAddrs h, a < h.next) ∧
    h1.wfHeap = true ∧
    b.ownAddrs h1 = b.ownAddrs h ∧
    readState b h1 = readState b h ∧
    readState c h1 = (readState b h).map
      (fun st => { st with full_expression := none }) := by
  obtain ⟨⟨fs, hgf⟩, ⟨bs, hgb⟩, ⟨ops, hga⟩, hfl, hbl, hal, hmet⟩ := wf_parts b h hwf
  have hblt := ownAddrs_lt_next_of_wf b h hwf
  unfold cloneH at hcl
  cases hm : b.metric with
  | none =>
      simp only [hm, hgf, hgb, hga, bind, Except.bind] at hcl
      injection hcl with hcl
      have hb2 := congrArg Prod.fst hcl
      have hh2 := congrArg Prod.snd hcl
      simp only at hb2 hh2
      have hn1 : h1.next = h.next + 3 := by
        rw [← hh2]
        simp only [Heap.next_alloc]
      have hcm : c.metric = none := by rw [← hb2]
      have hcf : c.functions = h.next := by rw [← hb2]; rfl
      have hcb : c.binary_ops = h.next + 1 := by rw [← hb2]; rfl
      have hca : c.arithmetic_ops = h.next + 2 := by rw [← hb2]; rfl
      have hcfe : c.full_expression = none := by rw [← hb2]
      have hpres : ∀ a, a < h.next → h1.get a = h.get a := by
        intro a halt
        rw [← hh2, Heap.get_alloc_ne, Heap.get_alloc_ne, Heap.get_alloc_ne]
        · omega
        · first
          | omega
          | (simp only [Heap.next_alloc]; omega)
        · first
          | omega
          | (simp only [Heap.next_alloc]; omega)
      have hg2 : h1.get h.next = some (.funcList fs) := by
        rw [← hh2, Heap.get_alloc_ne, Heap.get_alloc_ne]
        · exact Heap.get_alloc_self _ _
        · simp only [Heap.next_alloc]
          omega
        · simp only [Heap.next_alloc]
          omega
      have hg3 : h1.get (h.next + 1) = some (.binList bs) := by
        rw [← hh2, Heap.get_alloc_ne]
        · exact Heap.get_alloc_self _ _
        · simp only [Heap.next_alloc]
          omega
      have hg4 : h1.get (h.next + 2) = some (.ariList ops) := by
        rw [← hh2]
        exact Heap.get_alloc_self _ _
      have hwf1 : h1.wfHeap = true := by
        rw [← hh2]
        exact Heap.wfHeap_alloc _ _ (Heap.wfHeap_alloc _ _ (Heap.wfHeap_alloc h _ hwfh))
      have hcongr := readState_congr b h h1 (fun a hmem => hpres a (hblt a hmem))
      refine ⟨by omega, hpres, ?_, hblt, hwf1, hcongr.1, hcongr.2, ?_⟩
      · intro a ha
        rcases mem_ownAddrs_cases c h1 a ha with he | he | he | ⟨mc, hmc, hcase⟩
        · rw [hcf] at he
          subst he
          omega
        · rw [hcb] at he
          subst he
          omega
        · rw [hca] at he
          subst he
          omega
        · rw [hcm] at hmc
          exact Option.noConfusion hmc
      · simp only [readState, hcm, hcf, hcb, hca, hcfe, hg2, hg3, hg4,
          hm, hgf, hgb, hga, Option.map, bind, Option.bind]
  | some ma =>
      obtain ⟨hmlt, mn, la, range, ofs, hgm, hlalt, ls, hgl⟩ := hmet ma hm
      simp only [hm, hgm, hgl, hgf, hgb, hga, bind, Except.bind] at hcl
      injection hcl with hcl
      have hb2 := congrArg Prod.fst hcl
      have hh2 := congrArg Prod.snd hcl
      simp only at hb2 hh2
      have hn1 : h1.next = h.next + 5 := by
        rw [← hh2]
        simp only [Heap.next_alloc]
      have hcm : c.metric = some (h.next + 1) := by rw [← hb2]; rfl
      have hcf : c.functions = h.next + 2 := by rw [← hb2]; rfl
      have hcb : c.binary_ops = h.next + 3 := by rw [← hb2]; rfl
      have hca : c.arithmetic_ops = h.next + 4 := by rw [← hb2]; rfl
      have hcfe : c.full_expression = none := by rw [← hb2]
      have hpres : ∀ a, a < h.next → h1.get a = h.get a := by
        intro a halt
        rw [← hh2, Heap.get_alloc_ne, Heap.get_alloc_ne, Heap.get_alloc_ne,
          Heap.get_alloc_ne, Heap.get_alloc_ne]
        all_goals first
          | omega
          | (simp only [Heap.next_alloc]; omega)
      have hg0 : h1.get h.next = some (.labelList ls) := by
        rw [← hh2, Heap.get_alloc_ne, Heap.get_alloc_ne, Heap.get_alloc_ne,
          Heap.get_alloc_ne]
        · exact Heap.get_alloc_self _ _
        all_goals simp only [Heap.next_alloc]; omega
      have hg1 : h1.get (h.next + 1)
          = some (.metricCell mn h.next range ofs) := by
        rw [← hh2, Heap.get_alloc_ne, Heap.get_alloc_ne, Heap.get_alloc_ne]
        · exact Heap.get_alloc_self _ _
        all_goals simp only [Heap.next_alloc]; omega
      have hg2 : h1.get (h.next + 2) = some (.funcList fs) := by
        rw [← hh2, Heap.get_alloc_ne, Heap.get_alloc_ne]
        · exact Heap.get_alloc_self _ _
        all_goals simp only [Heap.next_alloc]; omega
      have hg3 : h1.get (h.next + 3) = some (.binList bs) := by
        rw [← hh2, Heap.get_alloc_ne]
        · exact Heap.get_alloc_self _ _
        all_goals simp only [Heap.next_alloc]; omega
      have hg4 : h1.get (h.next + 4) = some (.ariList ops) := by
        rw [← hh2]
        exact Heap.get_alloc_self _ _
      have hwf1 : h1.wfHeap = true := by
        rw [← hh2]
        exact Heap.wfHeap_alloc _ _ (Heap.wfHeap_alloc _ _ (Heap.wfHeap_alloc _ _
          (Heap.wfHeap_alloc _ _ (Heap.wfHeap_alloc h _ hwfh))))
      have hcongr := readState_congr b h h1 (fun a hmem => hpres a (hblt a hmem))
      refine ⟨by omega, hpres, ?_, hblt, hwf1, hcongr.1, hcongr.2, ?_⟩
      · intro a ha
        rcases mem_ownAddrs_cases c h1 a ha with he | he | he | ⟨mc, hmc, hcase⟩
        · rw [hcf] at he
          subst he
          omega
        · rw [hcb] at he
          subst he
          omega
        · rw [hca] at he
          subst he
          omega
        · rw [hcm] at hmc
          injection hmc with hmc
          subst hmc
          rcases hcase with he | ⟨mn', la', r', o', hget, he⟩
          · subst he
            omega
          · subst he
            rw [hg1] at hget
            injection hget with e
            injection e with e1 e2 e3 e4
            subst e2
            omega
      · simp only [readState, hcm, hcf, hcb, hca, hcfe, hg0, hg1, hg2, hg3, hg4,
          hm, hgm, hgl, hgf, hgb, hga, Option.map, bind, Option.bind]

/-- C8: for every well-formed builder `b`, a successful `c = b.clone()`
reads back the original's state with `full_expression` dropped (an
independently-owned deep copy), and afterwards running any sequence of
mutators on `b` never changes `c.build()`, and running any sequence of
mutators on `c` never changes `b.build()`. -/
theorem clone_independence (b : HBuilder) (h : Heap) (c : HBuilder) (h1 : Heap)
    (hwf : b.wf h = true) (hwfh : h.wfHeap = true)
    (hcl : b.cloneH h = .ok (c, h1)) :
    readState c h1 = (readState b h).map
      (fun st => { st with full_expression := none }) ∧
    readState b h1 = readState b h ∧
    (∀ ms, buildH c (applyMutations ms b h1).2 = buildH c h1) ∧
    (∀ ms, buildH b (applyMutations ms c h1).2 = buildH b h1) := by
  obtain ⟨hn15, hpres, hcbound, hblt, hwf1, hbown, hbread, hcread⟩ :=
    cloneH_spec b h c h1 hwf hwfh hcl
  refine ⟨hcread, hbread, ?_, ?_⟩
  · intro ms
    obtain ⟨hn, hu, ho, hw⟩ := applyMutations_frame ms b h1 hwf1
    have hag : ∀ a ∈ c.ownAddrs h1, ((applyMutations ms b h1).2).get a = h1.get a := by
      intro a ha
      obtain ⟨hge, hlt⟩ := hcbound a ha
      refine hu a ?_ hlt
      intro hmem
      rw [hbown] at hmem
      have := hblt a hmem
      omega
    have hrs := (readState_congr c h1 _ hag).2
    unfold buildH
    rw [hrs]
  · intro ms
    obtain ⟨hn, hu, ho, hw⟩ := applyMutations_frame ms c h1 hwf1
    have hag : ∀ a ∈ b.ownAddrs h1, ((applyMutations ms c h1).2).get a = h1.get a := by
      intro a ha
      rw [hbown] at ha
      have halt := hblt a ha
      refine hu a ?_ (by omega)
      intro hmem
      have := (hcbound a hmem).1
      omega
    have hrs := (readState_congr b h1 _ hag).2
    unfold buildH
    rw [hrs]

/-- Witness for `clone_independence`: the builder
`PromQLBuilder().with_metric("x")` on the concrete heap, its concrete clone,
and one concrete mutation of each of the two (a label write on the
original, a range write on the clone). -/
theorem clone_independence_witness :
    buildH ⟨some 6, 7, 8, 9, none⟩
        (applyMutations [Mutation.mWithLabel "a" "1" "="] ⟨some 4, 0, 1, 2, none⟩
          ⟨[(9, .ariList []), (8, .binList []), (7, .funcList []),
            (6, .metricCell "x" 5 none none), (5, .labelList []),
            (4, .metricCell "x" 3 none none), (3, .labelList []),
            (2, .ariList []), (1, .binList []), (0, .funcList [])], 10⟩).2
      = buildH ⟨some 6, 7, 8, 9, none⟩
          ⟨[(9, .ariList []), (8, .binList []), (7, .funcList []),
            (6, .metricCell "x" 5 none none), (5, .labelList []),
            (4, .metricCell "x" 3 none none), (3, .labelList []),
            (2, .ariList []), (1, .binList []), (0, .funcList [])], 10⟩ ∧
    buildH ⟨some 4, 0, 1, 2, none⟩
        (applyMutations [Mutation.mWithRange "10m"] ⟨some 6, 7, 8, 9, none⟩
          ⟨[(9, .ariList []), (8, .binList []), (7, .funcList []),
            (6, .metricCell "x" 5 none none), (5, .labelList []),
            (4, .metricCell "x" 3 none none), (3, .labelList []),
            (2, .ariList []), (1, .binList []), (0, .funcList [])], 10⟩).2
      = buildH ⟨some 4, 0, 1, 2, none⟩
          ⟨[(9, .ariList []), (8, .binList []), (7, .funcList []),
            (6, .metricCell "x" 5 none none), (5, .labelList []),
            (4, .metricCell "x" 3 none none), (3, .labelList []),
            (2, .ariList []), (1, .binList []), (0, .funcList [])], 10⟩ := by
  have hmain := clone_independence ⟨some 4, 0, 1, 2, none⟩
    ⟨[(4, .metricCell "x" 3 none none), (3, .labelList []),
      (2, .ariList []), (1, .binList []), (0, .funcList [])], 5⟩
    ⟨some 6, 7, 8, 9, none⟩
    ⟨[(9, .ariList []), (8, .binList []), (7, .funcList []),
      (6, .metricCell "x" 5 none none), (5, .labelList []),
      (4, .metricCell "x" 3 none none), (3, .labelList []),
      (2, .ariList []), (1, .binList []), (0, .funcList [])], 10⟩
    (by rfl) (by rfl) (by rfl)
  exact ⟨hmain.2.2.1 [Mutation.mWithLabel "a" "1" "="],
    hmain.2.2.2 [Mutation.mWithRange "10m"]⟩

end HBuilder

/-- Witness for C9 on a concrete unterminated input (with an escaped quote
and a backslash-escaped character inside). -/
theorem unterminated_string_lexes_to_eof_witness :
    unterminatedLit "ab\\\"c\\d".toList = true ∧
    Lexer.tokenizeAux 12 ('"' :: "ab\\\"c\\d".toList) 3
      = .ok [⟨.STRING, String.mk (literalChars "ab\\\"c\\d".toList), 3⟩] ∧
    Lexer.tokenize ('"' :: "ab\\\"c\\d".toList)
      = .ok [⟨.STRING, "ab\"cd", 0⟩] := by
  refine ⟨by decide, ?_, ?_⟩
  · exact (unterminated_string_lexes_to_eof "ab\\\"c\\d".toList 10 3 (by decide)).1
  · have h := (unterminated_string_lexes_to_eof "ab\\\"c\\d".toList 10 0 (by decide)).2
    simpa using h

end PromQL
